import Mathlib

/-!
Verification of the gittasks storage/identity core.

Text is modelled as `List Char` (`Str`), machine integers as `Nat` with
explicit bounds where Rust's `u64` overflow semantics matter, and fallible
operations as `Option`/`Except`.  Each definition is a direct translation of
the corresponding Rust function; external crates (`serde_yaml`, `slug`,
`chrono`) are modelled by executable codecs faithful to the textual formats
they produce and accept.
-/

set_option maxRecDepth 4000
set_option maxHeartbeats 1000000

namespace GitTasks

/-! # Definitions -/


/-- Text, modelled as a list of characters. -/
abbrev Str := List Char

/-- The Unicode `White_Space` test, exactly the class `char::is_whitespace`
uses and `str::trim` strips: U+0009..U+000D, space, NEL, NBSP, the Ogham
space mark, U+2000..U+200A, the line and paragraph separators, the narrow
no-break space, the medium mathematical space and the ideographic
space. -/
def isWs (c : Char) : Bool :=
  (9 ≤ c.toNat && c.toNat ≤ 13) || c.toNat = 32 || c.toNat = 133 || c.toNat = 160
    || c.toNat = 5760 || (8192 ≤ c.toNat && c.toNat ≤ 8202)
    || c.toNat = 8232 || c.toNat = 8233 || c.toNat = 8239
    || c.toNat = 8287 || c.toNat = 12288

/-- Model of `str::trim_start`. -/
def trimLeft (s : Str) : Str := s.dropWhile isWs

/-- Model of `str::trim_end`. -/
def trimRight (s : Str) : Str := (s.reverse.dropWhile isWs).reverse

/-- Model of `str::trim`. -/
def trim (s : Str) : Str := trimRight (trimLeft s)

/-- ASCII decimal digit test. -/
def isDigitCh (c : Char) : Bool := '0' ≤ c && c ≤ '9'

/-- Numeric value of an ASCII digit character. -/
def digitVal (c : Char) : Nat := c.toNat - '0'.toNat

/-- Digit character for a value below ten. -/
def digitCh (d : Nat) : Char :=
  if d = 0 then '0' else if d = 1 then '1' else if d = 2 then '2'
  else if d = 3 then '3' else if d = 4 then '4' else if d = 5 then '5'
  else if d = 6 then '6' else if d = 7 then '7' else if d = 8 then '8' else '9'

/-- Fuel-bounded digit extraction, structurally recursive so that it
evaluates inside the kernel. -/
def natToStrAux : Nat → Nat → Str
  | 0, _ => []
  | fuel + 1, n => if n = 0 then [] else natToStrAux fuel (n / 10) ++ [digitCh (n % 10)]

/-- Decimal rendering of a natural number, most significant digit first,
as produced by Rust's `Display` for unsigned integers. -/
def natToStr (n : Nat) : Str :=
  if n = 0 then ['0'] else natToStrAux n n

/-- Parse a non-empty all-digit string as a natural number. -/
def parseDigits (s : Str) : Option Nat :=
  if s = [] then none
  else if s.all isDigitCh then some (s.foldl (fun a c => 10 * a + digitVal c) 0)
  else none

/-- Model of Rust `u64::from_str`: an optional leading `+`, then at least
one decimal digit, rejecting values that overflow 64 bits. -/
def parseU64 (s : Str) : Option Nat :=
  let s' := if s.head? = some '+' then s.tail else s
  match parseDigits s' with
  | some n => if n < 2 ^ 64 then some n else none
  | none => none

/-- Split a string at the first occurrence of `c`, yielding the parts
before and after it.  Models `str::split_once` and `str::find`. -/
def splitFirst (c : Char) : Str → Option (Str × Str)
  | [] => none
  | x :: r =>
    if x = c then some ([], r)
    else (splitFirst c r).map (fun p => (x :: p.1, p.2))

/-- Split a string at the last occurrence of `c`.  Models `str::rfind`
followed by slicing. -/
def rsplitOnce (c : Char) (s : Str) : Option (Str × Str) :=
  match splitFirst c s.reverse with
  | none => none
  | some (a, b) => some (b.reverse, a.reverse)

/-- Split a string on every occurrence of `c`.  Models `str::lines`-style
separator splitting as `serde_yaml` sees the frontmatter block. -/
def splitOnChar (c : Char) : Str → List Str
  | [] => [[]]
  | x :: r =>
    if x = c then [] :: splitOnChar c r
    else
      match splitOnChar c r with
      | [] => [[x]]
      | h :: t => (x :: h) :: t

/-- Join strings with a single separating character between elements. -/
def interSep (c : Char) : List Str → Str
  | [] => []
  | [l] => l
  | l :: ls => l ++ c :: interSep c ls

/-- Boolean prefix test on character lists. -/
def prefixOf : Str → Str → Bool
  | [], _ => true
  | _ :: _, [] => false
  | a :: p, b :: t => a == b && prefixOf p t

/-- Position of the first occurrence of `pat` as a substring, modelling
`str::find` with a string pattern. -/
def findSub (pat : Str) : Str → Option Nat
  | [] => if prefixOf pat [] then some 0 else none
  | x :: r =>
    if prefixOf pat (x :: r) then some 0
    else (findSub pat r).map (· + 1)

/-- Task status, translated from `TaskStatus` in `src/models/task.rs`. -/
inductive TaskStatus
  | pending
  | inProgress
  | completed
  | archived
deriving DecidableEq, Repr

/-- Task priority, translated from `Priority` in `src/models/task.rs`. -/
inductive Priority
  | low
  | medium
  | high
  | critical
deriving DecidableEq, Repr

/-- Task kind, translated from `TaskKind` in `src/models/task.rs`. -/
inductive TaskKind
  | task
  | todo
  | idea
deriving DecidableEq, Repr

/-- The serde kebab-case name of a status, as serialized by `serde_yaml`. -/
def statusStr : TaskStatus → Str
  | .pending => "pending".toList
  | .inProgress => "in-progress".toList
  | .completed => "completed".toList
  | .archived => "archived".toList

/-- Inverse of `statusStr`: serde only accepts the exact rename strings. -/
def statusOfStr (s : Str) : Option TaskStatus :=
  if s = "pending".toList then some .pending
  else if s = "in-progress".toList then some .inProgress
  else if s = "completed".toList then some .completed
  else if s = "archived".toList then some .archived
  else none

/-- The serde lowercase name of a priority. -/
def priorityStr : Priority → Str
  | .low => "low".toList
  | .medium => "medium".toList
  | .high => "high".toList
  | .critical => "critical".toList

/-- Inverse of `priorityStr`. -/
def priorityOfStr (s : Str) : Option Priority :=
  if s = "low".toList then some .low
  else if s = "medium".toList then some .medium
  else if s = "high".toList then some .high
  else if s = "critical".toList then some .critical
  else none

/-- The serde lowercase name of a kind. -/
def kindStr : TaskKind → Str
  | .task => "task".toList
  | .todo => "todo".toList
  | .idea => "idea".toList

/-- Inverse of `kindStr`. -/
def kindOfStr (s : Str) : Option TaskKind :=
  if s = "task".toList then some .task
  else if s = "todo".toList then some .todo
  else if s = "idea".toList then some .idea
  else none

/-- Calendar date, modelling `chrono::NaiveDate` through its serialized
`YYYY-MM-DD` form. -/
structure Date where
  y : Nat
  m : Nat
  d : Nat
deriving DecidableEq, Repr

/-- UTC timestamp, modelling `chrono::DateTime<Utc>` through its serialized
RFC 3339 form with `Z` offset and auto-precision subseconds. -/
structure Timestamp where
  date : Date
  hh : Nat
  mm : Nat
  ss : Nat
  nanos : Nat
deriving DecidableEq, Repr

/-- A task record, translated field by field (and in field order) from the
`Task` struct in `src/models/task.rs`. -/
structure Task where
  id : Nat
  title : Str
  status : TaskStatus
  priority : Priority
  kind : TaskKind
  tags : List Str
  due : Option Date
  created : Timestamp
  updated : Timestamp
  closed_commit : Option Str
  description : Str
deriving DecidableEq, Repr

/-- Left-pad a decimal rendering with zeros to a minimum width, as Rust's
width/zero-fill format specifiers and chrono's padded fields do. -/
def padZeros (w n : Nat) : Str :=
  List.replicate (w - (natToStr n).length) '0' ++ natToStr n

/-- Serialized form of a date: `YYYY-MM-DD`. -/
def renderDate (d : Date) : Str :=
  padZeros 4 d.y ++ '-' :: (padZeros 2 d.m ++ '-' :: padZeros 2 d.d)

/-- Parse a serialized date. -/
def parseDate (s : Str) : Option Date :=
  match splitOnChar '-' s with
  | [a, b, c] =>
      match parseDigits a, parseDigits b, parseDigits c with
      | some y, some m, some dd => some ⟨y, m, dd⟩
      | _, _, _ => none
  | _ => none

/-- Subsecond rendering with chrono's automatic precision: empty, or 3, 6
or 9 digits after a dot. -/
def renderFrac (nanos : Nat) : Str :=
  if nanos = 0 then []
  else if nanos % 1000000 = 0 then '.' :: padZeros 3 (nanos / 1000000)
  else if nanos % 1000 = 0 then '.' :: padZeros 6 (nanos / 1000)
  else '.' :: padZeros 9 nanos

/-- Clock part of a serialized timestamp: `hh:mm:ss` plus subseconds. -/
def timePart (t : Timestamp) : Str :=
  padZeros 2 t.hh ++ ':' :: (padZeros 2 t.mm ++ ':' :: (padZeros 2 t.ss ++ renderFrac t.nanos))

/-- Serialized form of a timestamp: RFC 3339 with `Z` suffix. -/
def renderTS (t : Timestamp) : Str :=
  renderDate t.date ++ 'T' :: (timePart t ++ ['Z'])

/-- Parse a fractional-second field of up to nine digits into nanoseconds. -/
def parseFrac (fr : Str) : Option Nat :=
  if fr.length ≤ 9 then (parseDigits fr).map (fun v => v * 10 ^ (9 - fr.length))
  else none

/-- Parse a serialized timestamp. -/
def parseTS (s : Str) : Option Timestamp :=
  match splitOnChar 'T' s with
  | [ds, ts] =>
      match parseDate ds with
      | none => none
      | some date =>
          if ts.getLast? = some 'Z' then
            match splitOnChar ':' ts.dropLast with
            | [hs, ms, sec] =>
                match parseDigits hs, parseDigits ms with
                | some hh, some mm =>
                    (match splitOnChar '.' sec with
                     | [sp] => (parseDigits sp).map (fun sv => ⟨date, hh, mm, sv, 0⟩)
                     | [sp, fr] =>
                         match parseDigits sp, parseFrac fr with
                         | some sv, some nv => some ⟨date, hh, mm, sv, nv⟩
                         | _, _ => none
                     | _ => none)
                | _, _ => none
            | _ => none
          else none
  | _ => none

/-- ASCII lowercase letter test. -/
def isLowerAZ (c : Char) : Bool := 'a' ≤ c && c ≤ 'z'

/-- ASCII uppercase letter test. -/
def isUpperAZ (c : Char) : Bool := 'A' ≤ c && c ≤ 'Z'

/-- ASCII alphanumeric test. -/
def isAlnumA (c : Char) : Bool := isLowerAZ c || isUpperAZ c || isDigitCh c

/-- Characters our `serde_yaml` model emits as plain unquoted scalars. -/
def plainOkChar (c : Char) : Bool :=
  isAlnumA c || c = '-' || c = '_' || c = '.' || c = '/' || c = ' '

/-- A string the scalar codec may emit unquoted: non-empty, made of plain
characters, with no edge spaces.  Everything else is double-quoted. -/
def plainSafe (s : Str) : Bool :=
  !s.isEmpty && s.all plainOkChar && s.head? ≠ some ' ' && s.getLast? ≠ some ' '

/-- Escape sequence for one character inside a double-quoted scalar. -/
def escChar (c : Char) : Str :=
  if c = '\\' then ['\\', '\\']
  else if c = '\"' then ['\\', '\"']
  else if c = '\n' then ['\\', 'n']
  else [c]

/-- Escape the body of a double-quoted scalar. -/
def escape : Str → Str
  | [] => []
  | c :: r => escChar c ++ escape r

/-- Render a string value as a YAML scalar: plain when safe, double-quoted
and escaped otherwise. -/
def renderVal (s : Str) : Str :=
  if plainSafe s then s else '\"' :: (escape s ++ ['\"'])

/-- Decode one escape character. -/
def unescChar (c : Char) : Option Char :=
  if c = '\\' then some '\\'
  else if c = '\"' then some '\"'
  else if c = 'n' then some '\n'
  else none

/-- Consume the body of a double-quoted scalar up to the closing quote,
requiring it to end the string. -/
def unescape : Str → Option Str
  | [] => none
  | c :: r =>
    if c = '\"' then (if r = [] then some [] else none)
    else if c = '\\' then
      match r with
      | [] => none
      | d :: r' => (unescChar d).bind (fun ch => (unescape r').map (ch :: ·))
    else (unescape r).map (c :: ·)

/-- Parse a YAML scalar value: quoted strings are unescaped, anything else
is taken verbatim. -/
def parseVal (s : Str) : Option Str :=
  match s with
  | c :: r => if c = '\"' then unescape r else some s
  | [] => some []

/-- Key-value line, as `serde_yaml` emits mapping entries. -/
def renderKV (k v : Str) : Str := k ++ ':' :: ' ' :: v

/-- Split a frontmatter line into key and value at the first colon, the
value being what follows `": "` (empty when the line ends at the colon). -/
def splitKV (line : Str) : Option (Str × Str) :=
  match splitFirst ':' line with
  | none => none
  | some (k, rest) =>
      match rest with
      | [] => some (k, [])
      | c :: v => if c = ' ' then some (k, v) else none

/-- Partially decoded frontmatter fields, populated line by line. -/
structure PartialTask where
  id : Option Nat := none
  title : Option Str := none
  status : Option TaskStatus := none
  priority : Option Priority := none
  kind : Option TaskKind := none
  tags : Option (List Str) := none
  due : Option Date := none
  created : Option Timestamp := none
  updated : Option Timestamp := none
  closed_commit : Option Str := none
deriving DecidableEq, Repr

/-- Whether a line is a `- ` sequence item of a block list. -/
def isItemLine (l : Str) : Bool := l.take 2 = ['-', ' ']

/-- Parse the values of a run of sequence-item lines. -/
def parseItems (ls : List Str) : Option (List Str) :=
  ls.mapM (fun l => parseVal (l.drop 2))

/-- Parse a YAML unsigned integer into `u64` range. -/
def parseYamlU64 (s : Str) : Option Nat :=
  match parseDigits s with
  | some n => if n < 2 ^ 64 then some n else none
  | none => none

/-- Apply one scalar key-value pair to the partial record: known keys set
the field (failing if the value does not decode), unknown keys are ignored
as serde does by default. -/
def applyKV (k v : Str) (acc : PartialTask) : Option PartialTask :=
  match parseVal v with
  | none => none
  | some w =>
    if k = "id".toList then (parseYamlU64 w).map (fun n => { acc with id := some n })
    else if k = "title".toList then some { acc with title := some w }
    else if k = "status".toList then
      (statusOfStr w).map (fun x => { acc with status := some x })
    else if k = "priority".toList then
      (priorityOfStr w).map (fun x => { acc with priority := some x })
    else if k = "kind".toList then (kindOfStr w).map (fun x => { acc with kind := some x })
    else if k = "due".toList then (parseDate w).map (fun d => { acc with due := some d })
    else if k = "created".toList then
      (parseTS w).map (fun ts => { acc with created := some ts })
    else if k = "updated".toList then
      (parseTS w).map (fun ts => { acc with updated := some ts })
    else if k = "closed_commit".toList then some { acc with closed_commit := some w }
    else some acc

/-- Process the frontmatter lines in order: a `tags:` line consumes the
following block of `- ` items; every other line is a scalar entry. -/
def parseLines : List Str → PartialTask → Option PartialTask
  | [], acc => some acc
  | line :: rest, acc =>
    if line = [] then parseLines rest acc
    else
      match splitKV line with
      | none => none
      | some (k, v) =>
        if k = "tags".toList then
          if v = [] then
            match parseItems (rest.takeWhile isItemLine) with
            | some tags =>
                parseLines (rest.dropWhile isItemLine) { acc with tags := some tags }
            | none => none
          else none
        else
          match applyKV k v acc with
          | some acc' => parseLines rest acc'
          | none => none
termination_by ls _ => ls.length
decreasing_by
  · simp only [List.length_cons]; omega
  · have hd : (rest.dropWhile isItemLine).length ≤ rest.length :=
      (List.dropWhile_sublist _).length_le
    simp only [List.length_cons]; omega
  · simp only [List.length_cons]; omega

/-- Finalize a parsed frontmatter block: `id`, `title`, `created` and
`updated` are mandatory, everything else defaults as in the Rust struct. -/
def finalize (p : PartialTask) : Option Task :=
  match p.id, p.title, p.created, p.updated with
  | some id, some title, some created, some updated =>
      some { id := id, title := title,
             status := p.status.getD .pending,
             priority := p.priority.getD .medium,
             kind := p.kind.getD .task,
             tags := p.tags.getD [],
             due := p.due,
             created := created, updated := updated,
             closed_commit := p.closed_commit,
             description := [] }
  | _, _, _, _ => none

/-- Model of `serde_yaml::from_str::<Task>` on a frontmatter block. -/
def parseFrontmatter (fm : Str) : Option Task :=
  (parseLines (splitOnChar '\n' fm) {}).bind finalize

/-- The frontmatter lines of a task: the `serde_yaml::to_string` output in
struct field order, skipping empty tags, absent due and absent
closed-commit, exactly as the serde attributes on `Task` direct. -/
def renderFM (t : Task) : List Str :=
  renderKV "id".toList (natToStr t.id)
    :: renderKV "title".toList (renderVal t.title)
    :: renderKV "status".toList (statusStr t.status)
    :: renderKV "priority".toList (priorityStr t.priority)
    :: renderKV "kind".toList (kindStr t.kind)
    :: ((if t.tags = [] then []
        else ("tags".toList ++ [':']) :: t.tags.map (fun tg => '-' :: ' ' :: renderVal tg))
      ++ ((match t.due with
          | none => []
          | some d => [renderKV "due".toList (renderDate d)])
        ++ renderKV "created".toList (renderTS t.created)
        :: renderKV "updated".toList (renderTS t.updated)
        :: (match t.closed_commit with
            | none => []
            | some c => [renderKV "closed_commit".toList (renderVal c)])))

/-- Join lines, terminating each with a newline, as the emitted
frontmatter text does. -/
def joinNL : List Str → Str
  | [] => []
  | l :: ls => l ++ '\n' :: joinNL ls

/-- The frontmatter delimiter `---`. -/
def delim3 : Str := ['-', '-', '-']

/-- Translation of `serialize_task` from `src/models/frontmatter.rs`:
delimiter line, frontmatter block, delimiter line, then for a non-empty
description a blank line and the description followed by a newline. -/
def serializeTask (t : Task) : Str :=
  delim3 ++ '\n' :: (joinNL (renderFM t) ++ delim3 ++ '\n'
    :: (if t.description = [] then [] else '\n' :: (t.description ++ ['\n'])))

/-- Translation of `split_frontmatter` from `src/models/frontmatter.rs`:
trim, require the opening `---`, strip following newlines, and cut at the
first `\n---`; the body starts 4 positions later if in range. -/
def splitFrontmatter (content : Str) : Option (Str × Str) :=
  if prefixOf delim3 (trim content) then
    match findSub ('\n' :: delim3) (((trim content).drop 3).dropWhile (fun c => c = '\n')) with
    | some endPos =>
        some ((((trim content).drop 3).dropWhile (fun c => c = '\n')).take endPos,
          if endPos + 1 + 3 < (((trim content).drop 3).dropWhile (fun c => c = '\n')).length
          then (((trim content).drop 3).dropWhile (fun c => c = '\n')).drop (endPos + 1 + 3)
          else [])
    | none => none
  else none

/-- Translation of `parse_task` from `src/models/frontmatter.rs`: split
the frontmatter, decode it, and attach the trimmed body as description. -/
def parseTask (content : Str) : Option Task :=
  match splitFrontmatter content with
  | none => none
  | some (fm, body) =>
      match parseFrontmatter fm with
      | none => none
      | some t => some { t with description := trim body }

/-- Record used to refute the unrestricted round-trip claim: its
description carries leading whitespace, which `parse_task` trims away. -/
def cexC1 : Task :=
  { id := 1, title := "a".toList, status := .pending, priority := .medium,
    kind := .task, tags := [], due := none,
    created := ⟨⟨2026, 1, 1⟩, 0, 0, 0, 0⟩, updated := ⟨⟨2026, 1, 1⟩, 0, 0, 0, 0⟩,
    closed_commit := none, description := " x".toList }

/-- Record used to witness the amended round-trip claim on a fully
populated concrete input. -/
def wTaskC1 : Task :=
  { id := 7, title := "Fix auth bug".toList, status := .inProgress, priority := .high,
    kind := .todo, tags := ["auth".toList, "security".toList],
    due := some ⟨2026, 2, 20⟩,
    created := ⟨⟨2026, 2, 13⟩, 10, 30, 0, 0⟩,
    updated := ⟨⟨2026, 2, 13⟩, 10, 30, 5, 123000000⟩,
    closed_commit := some "abc123".toList,
    description := "Line one.\nLine two.".toList }

/-! ## Filename encoding: slug and zero-padded identifier

`Task::slug` calls `slug::slugify`, whose ASCII core keeps `a-z0-9`,
lowercases `A-Z` by adding 32, and emits a single `-` for any other byte
unless the previous output byte was already a `-` (with `prev_is_dash`
initially true so no leading dash is produced); a final trailing dash is
popped.  `Task::filename` is `format!("{}-{:03}.md", slug, id)`. -/

/-- ASCII lowercasing of a single byte, as `x - b'A' + b'a'` does. -/
def toLowerCh (c : Char) : Char :=
  if isUpperAZ c then Char.ofNat (c.toNat + 32) else c

/-- The `push_char` loop of `slug::slugify` over the input, carrying the
`prev_is_dash` flag. -/
def slugifyAux : Bool → Str → Str
  | _, [] => []
  | prevDash, c :: r =>
    if isLowerAZ c || isDigitCh c then c :: slugifyAux false r
    else if isUpperAZ c then toLowerCh c :: slugifyAux false r
    else if prevDash then slugifyAux true r
    else '-' :: slugifyAux true r

/-- The final `if string.ends_with('-') { string.pop(); }` of `slugify`. -/
def dropTrailingDash (s : Str) : Str :=
  if s.getLast? = some '-' then s.dropLast else s

/-- Model of `slug::slugify` restricted to ASCII input (non-ASCII input
goes through `deunicode`, which is outside this model's scope). -/
def slugify (s : Str) : Str := dropTrailingDash (slugifyAux true s)

/-- `Task::filename`: `format!("{}-{:03}.md", slug, id)`. -/
def Task.filename (t : Task) : Str :=
  slugify t.title ++ '-' :: (padZeros 3 t.id ++ ".md".toList)

/-! ## File stem and extension

Rust's `Path::file_stem` / `Path::extension` split the file name at the
last `.` that is not the leading byte; a name that is empty, `.` or `..`
has no file name at all. -/

/-- `std::path`'s `split_file_at_dot`: split a file name before/after its
last `.`, ignoring a dot in leading position. -/
def splitFileAtDot (f : Str) : Str × Option Str :=
  if f = ['.', '.'] then (f, none)
  else
    match f with
    | [] => ([], none)
    | c :: rest =>
      match rsplitOnce '.' rest with
      | none => (f, none)
      | some (a, b) => (c :: a, some b)

/-- `Path::file_stem` on a plain file name. -/
def fileStem (f : Str) : Option Str :=
  if f = [] ∨ f = ['.'] ∨ f = ['.', '.'] then none
  else some (splitFileAtDot f).1

/-- `Path::extension` on a plain file name. -/
def extension (f : Str) : Option Str :=
  if f = [] ∨ f = ['.'] ∨ f = ['.', '.'] then none
  else (splitFileAtDot f).2

/-- `path.extension().is_some_and(|ext| ext == "md")`. -/
def hasMdExt (f : Str) : Bool :=
  match extension f with
  | some e => e = "md".toList
  | none => false

/-- `IdGenerator::extract_id_from_filename`: take the stem, find the last
hyphen, and `u64`-parse everything after it. -/
def extractId (f : Str) : Option Nat :=
  match fileStem f with
  | none => none
  | some stem =>
    match rsplitOnce '-' stem with
    | none => none
    | some (_, idPart) => parseU64 idPart

/-! ## Sequential identifier generation (`IdGenerator`)

The tasks directory is modelled as `Option (List Str)`: `none` when the
directory does not exist, otherwise the list of entry file names. -/

/-- One step of the `find_max_id` loop: `max_id.max(id)` for an `.md`
entry that decodes, otherwise leave the accumulator alone. -/
def maxStep (m : Nat) (f : Str) : Nat :=
  if hasMdExt f then
    match extractId f with
    | some i => max m i
    | none => m
  else m

/-- `IdGenerator::find_max_id`: 0 for an absent directory, otherwise the
fold of `maxStep` over the directory entries. -/
def findMaxId : Option (List Str) → Nat
  | none => 0
  | some files => files.foldl maxStep 0

/-- `IdGenerator::next_id`. -/
def nextId (dir : Option (List Str)) : Nat := findMaxId dir + 1

/-! ## The file store

A store is a location that either is or is not initialized (whether
`.tasks` exists) together with the directory contents: a list of
`(file name, file content)` pairs. -/

/-- `FileStoreError`. -/
inductive StoreErr
  | taskNotFound : Nat → StoreErr
  | frontmatter : StoreErr
  | io : StoreErr
  | directoryNotInitialized : StoreErr
deriving DecidableEq, Repr

/-- The observable state of a `FileStore`'s tasks directory. -/
structure StoreState where
  initialized : Bool
  files : List (Str × Str)
deriving DecidableEq, Repr

/-- `std::fs::write`: overwrite the entry with this name, or append a new
entry. -/
def writeFile (st : StoreState) (name content : Str) : StoreState :=
  if st.files.any (fun e => e.1 = name) then
    { st with files := st.files.map (fun e => if e.1 = name then (name, content) else e) }
  else
    { st with files := st.files ++ [(name, content)] }

/-- `FileStore::create`: refuse when uninitialized, assign `next_id`,
serialize and write the task file. -/
def create (st : StoreState) (task : Task) : Except StoreErr (Task × StoreState) :=
  if st.initialized = false then .error .directoryNotInitialized
  else
    let id := nextId (some (st.files.map Prod.fst))
    let task' := { task with id := id }
    .ok (task', writeFile st (Task.filename task') (serializeTask task'))

/-- Repeated `FileStore::create` calls, threading the store state. -/
def createSeq : List Task → StoreState → Except StoreErr (List Task × StoreState)
  | [], st => .ok ([], st)
  | t :: ts, st =>
    match create st t with
    | .error e => .error e
    | .ok (t', st') =>
      match createSeq ts st' with
      | .error e => .error e
      | .ok (out, st'') => .ok (t' :: out, st'')

/-- `FileStore::find_task_file`: first `.md` entry whose decoded
identifier matches, `TaskNotFound` if none, `DirectoryNotInitialized`
when the location does not exist. -/
def findTaskFile (st : StoreState) (id : Nat) : Except StoreErr Str :=
  if st.initialized = false then .error .directoryNotInitialized
  else
    match st.files.find? (fun e => hasMdExt e.1 && (extractId e.1 = some id)) with
    | some e => .ok e.1
    | none => .error (.taskNotFound id)

/-- `FileStore::read`: locate the file, read its content, parse it. -/
def readTask (st : StoreState) (id : Nat) : Except StoreErr Task :=
  match findTaskFile st id with
  | .error e => .error e
  | .ok name =>
    match st.files.find? (fun e => e.1 = name) with
    | none => .error .io
    | some e =>
      match parseTask e.2 with
      | some t => .ok t
      | none => .error .frontmatter

/-! ## Task filters -/

/-- `TaskFilter`, field for field. -/
structure TaskFilter where
  kind : Option TaskKind := none
  status : Option TaskStatus := none
  priority : Option Priority := none
  tags : List Str := []
  include_archived : Bool := false
deriving DecidableEq, Repr

/-- `TaskFilter::matches`, translated early-return by early-return. -/
def TaskFilter.matches (f : TaskFilter) (t : Task) : Bool :=
  if ((match f.kind with | some k => decide (t.kind ≠ k) | none => false) : Bool) then false
  else if ((match f.status with | some s => decide (t.status ≠ s) | none => false) : Bool) then false
  else if ((match f.priority with | some p => decide (t.priority ≠ p) | none => false) : Bool) then false
  else if !f.tags.isEmpty && !(f.tags.all (fun tag => decide (tag ∈ t.tags))) then false
  else if !f.include_archived && t.status = TaskStatus.archived then false
  else true

/-! ## Project registry

Paths are modelled as lists of components; the registry's `HashSet` is a
list (its iteration order), and the persisted `.projects` file is carried
as `Option Str` (`none` before the first save).  `canonicalize` is an
oracle `Path → Option Path`: `none` when the path does not exist on
disk. -/

abbrev Path := List Str

/-- ASCII model of `str::to_lowercase`. -/
def lowerStr (s : Str) : Str := s.map toLowerCh

/-- `Path::file_name` for a components-list path. -/
def fileNameOf (p : Path) : Option Str := p.getLast?

/-- `ProjectRegistry` together with the persisted registry file. -/
structure ProjectRegistry where
  projects : List Path
  file : Option Str
deriving DecidableEq, Repr

/-- Render a path the way `to_string_lossy` sees it. -/
def pathStr (p : Path) : Str := interSep '/' p

/-- The registry file content `ProjectRegistry::save` writes: paths
joined by newlines, plus a trailing newline when non-empty. -/
def renderRegistry (projects : List Path) : Str :=
  let content := interSep '\n' (projects.map pathStr)
  if content = [] then content else content ++ ['\n']

/-- `ProjectRegistry::save`. -/
def ProjectRegistry.save (r : ProjectRegistry) : ProjectRegistry :=
  { r with file := some (renderRegistry r.projects) }

/-- `ProjectRegistry::link`. -/
def ProjectRegistry.link (canon : Path → Option Path) (r : ProjectRegistry) (p : Path) :
    ProjectRegistry × Bool :=
  let canonical := (canon p).getD p
  if canonical ∈ r.projects then (r, false)
  else (ProjectRegistry.save { r with projects := r.projects ++ [canonical] }, true)

/-- `ProjectRegistry::unlink`: remove the path as given, or failing that
its canonical form. -/
def ProjectRegistry.unlink (canon : Path → Option Path) (r : ProjectRegistry) (p : Path) :
    ProjectRegistry × Bool :=
  if p ∈ r.projects then
    (ProjectRegistry.save { r with projects := r.projects.erase p }, true)
  else
    match canon p with
    | some c =>
      if c ∈ r.projects then
        (ProjectRegistry.save { r with projects := r.projects.erase c }, true)
      else (r, false)
    | none => (r, false)

/-- The exact-match test of `ProjectRegistry::find_project`. -/
def exactMatch (name : Str) (p : Path) : Bool :=
  (fileNameOf p).any fun d => lowerStr d = lowerStr name

/-- The prefix-match test of `ProjectRegistry::find_project`. -/
def prefMatch (name : Str) (p : Path) : Bool :=
  (fileNameOf p).any fun d => prefixOf (lowerStr name) (lowerStr d)

/-- `ProjectRegistry::find_project`: first the exact scan, then the
prefix filter, accepted only when it is a singleton (whose sole element
`matches.pop()` takes from the end). -/
def ProjectRegistry.find_project (r : ProjectRegistry) (name : Str) : Option Path :=
  match r.projects.find? (exactMatch name) with
  | some p => some p
  | none =>
    let ms := r.projects.filter (prefMatch name)
    if ms.length = 1 then ms.getLast? else none

/-! ## Task locations and qualified-identifier resolution

The filesystem is modelled as the list of paths that exist. -/

/-- `TaskLocation`. -/
structure TaskLocation where
  root : Path
  tasks_dir : Path
  is_global : Bool
deriving DecidableEq, Repr

/-- `TaskLocationError`. -/
inductive LocationErr
  | notInGitRepo
  | directoryNotFound : Path → LocationErr
  | noHomeDirectory
  | io
deriving DecidableEq, Repr

/-- The `thiserror` display strings of `TaskLocationError`. -/
def locErrStr : LocationErr → Str
  | .notInGitRepo => "Not in a git repository".toList
  | .directoryNotFound _ => "Task directory does not exist".toList
  | .noHomeDirectory => "Failed to access home directory".toList
  | .io => "IO error".toList

/-- The walk-up loop of `TaskLocation::find_project_from`, structural on
the reversed component list of the current directory: check
`current/.git`, else pop one component, failing with `NotInGitRepo` when
nothing is left to pop. -/
def walkUp (fs : List Path) : List Str → Except LocationErr TaskLocation
  | [] =>
    if [".git".toList] ∈ fs then
      .ok { root := [], tasks_dir := [".tasks".toList], is_global := false }
    else .error .notInGitRepo
  | c :: rest =>
    let current := (c :: rest).reverse
    if current ++ [".git".toList] ∈ fs then
      .ok { root := current, tasks_dir := current ++ [".tasks".toList], is_global := false }
    else walkUp fs rest

/-- `TaskLocation::find_project_from`. -/
def findProjectFrom (fs : List Path) (start : Path) : Except LocationErr TaskLocation :=
  walkUp fs start.reverse

/-- `resolve_qualified_id`, with its `String` errors built from the same
format strings the Rust code uses. -/
def resolveQualifiedId (fs : List Path) (registry : ProjectRegistry) (idStr : Str)
    (defaultLocation : Option TaskLocation) : Except Str (TaskLocation × Nat) :=
  match splitFirst ':' idStr with
  | some (projectName, idPart) =>
    match parseU64 idPart with
    | none => .error ("Invalid task ID: ".toList ++ idPart)
    | some taskId =>
      match ProjectRegistry.find_project registry projectName with
      | none => .error ("Project not found: ".toList ++ projectName)
      | some projectPath =>
        match findProjectFrom fs projectPath with
        | .error e => .error ("Failed to find project: ".toList ++ locErrStr e)
        | .ok location => .ok (location, taskId)
  | none =>
    match parseU64 idStr with
    | none => .error ("Invalid task ID: ".toList ++ idStr)
    | some taskId =>
      match defaultLocation with
      | none => .error "No default location available".toList
      | some loc => .ok (loc, taskId)

/-- The concrete task used by the C5 witness: an uppercase title with
separators, doubled punctuation and a trailing space, and id 7. -/
def wTaskC5 : Task where
  id := 7
  title := "Fix Auth--Bug! ".toList
  status := .pending
  priority := .medium
  kind := .task
  tags := []
  due := none
  created := ⟨⟨2024, 1, 1⟩, 0, 0, 0, 0⟩
  updated := ⟨⟨2024, 1, 1⟩, 0, 0, 0, 0⟩
  closed_commit := none
  description := []

/-- A minimal record used to exercise `create` in witnesses. -/
def mkTask (id : Nat) (title : Str) : Task :=
  ⟨id, title, .pending, .medium, .task, [], none, ⟨⟨2024, 1, 1⟩, 0, 0, 0, 0⟩,
    ⟨⟨2024, 1, 1⟩, 0, 0, 0, 0⟩, none, []⟩

/-- The concrete store used by the C10 witness: initialized, with one
existing task file. -/
def wStoreC10 : StoreState :=
  { initialized := true, files := [("a-3.md".toList, [])] }

/-! ### Qualified-identifier resolution -/

/-- Decidable equality for `Except` results, giving the error-handling
counterexamples a computable equality test. -/
instance exceptDecEq {ε α : Type} [DecidableEq ε] [DecidableEq α] :
    DecidableEq (Except ε α)
  | .error a, .error b =>
    if h : a = b then .isTrue (by rw [h]) else .isFalse (fun hc => h (Except.error.inj hc))
  | .error _, .ok _ => .isFalse (fun hc => Except.noConfusion hc)
  | .ok _, .error _ => .isFalse (fun hc => Except.noConfusion hc)
  | .ok a, .ok b =>
    if h : a = b then .isTrue (by rw [h]) else .isFalse (fun hc => h (Except.ok.inj hc))

/-- The registry used by the C8 counterexample: one project `proj`. -/
def regC8 : ProjectRegistry :=
  { projects := [["proj".toList]], file := none }

/-- A default location for exercising `resolve_qualified_id`. -/
def wLocC8 : TaskLocation :=
  { root := ["home".toList], tasks_dir := ["home".toList, ".tasks".toList], is_global := false }

/-- The canonicalization oracle for the C9 witness: no path exists on
disk, so every path is registered as given. -/
def canonC9 : Path → Option Path := fun _ => none

/-- The empty registry for the C9 witness. -/
def regC9 : ProjectRegistry := { projects := [], file := none }

/-- The path linked and unlinked by the C9 witness. -/
def pathC9 : Path := ["proj".toList]

/-! # Theorems -/

theorem natToStrAux_zero (fuel : Nat) : natToStrAux fuel 0 = [] := by
  cases fuel with
  | zero => rfl
  | succ fuel => rw [natToStrAux, if_pos rfl]

theorem natToStrAux_eq_digits {fuel n : Nat} (hn : n ≠ 0) (hf : n ≤ fuel) :
    natToStrAux fuel n = ((Nat.digits 10 n).map digitCh).reverse := by
  induction fuel generalizing n with
  | zero => omega
  | succ fuel ih =>
      rw [natToStrAux, if_neg hn,
        Nat.digits_def' (by norm_num : (1 : ℕ) < 10) (Nat.pos_of_ne_zero hn)]
      by_cases h10 : n / 10 = 0
      · rw [h10, natToStrAux_zero, Nat.digits_zero]
        simp
      · have hlt : n / 10 < n := Nat.div_lt_self (Nat.pos_of_ne_zero hn) (by norm_num)
        rw [ih h10 (by omega)]
        simp

theorem natToStr_eq_digits (n : Nat) :
    natToStr n = if n = 0 then ['0'] else ((Nat.digits 10 n).map digitCh).reverse := by
  unfold natToStr
  by_cases hn : n = 0
  · rw [if_pos hn, if_pos hn]
  · rw [if_neg hn, if_neg hn, natToStrAux_eq_digits hn (Nat.le_refl n)]

theorem digitVal_digitCh {d : Nat} (h : d < 10) : digitVal (digitCh d) = d := by
  interval_cases d <;> decide

theorem isDigitCh_digitCh {d : Nat} (h : d < 10) : isDigitCh (digitCh d) = true := by
  interval_cases d <;> decide

theorem foldl_digits_eq_ofDigits (s : List Nat) (a : Nat) :
    s.foldl (fun x d => 10 * x + d) a = Nat.ofDigits 10 s.reverse + a * 10 ^ s.length := by
  induction s generalizing a with
  | nil => simp
  | cons d s ih =>
      simp only [List.foldl_cons, List.reverse_cons, List.length_cons, ih,
        Nat.ofDigits_append, Nat.ofDigits_singleton, List.length_reverse]
      ring

theorem natToStr_ne_nil (n : Nat) : natToStr n ≠ [] := by
  rw [natToStr_eq_digits]
  split
  · simp
  · next h =>
    have hd : Nat.digits 10 n ≠ [] := Nat.digits_ne_nil_iff_ne_zero.mpr h
    simp [hd]

theorem natToStr_all_digits (n : Nat) : (natToStr n).all isDigitCh = true := by
  rw [natToStr_eq_digits]
  split
  · decide
  · simp only [List.all_reverse, List.all_eq_true]
    intro c hc
    obtain ⟨d, hd, rfl⟩ := List.mem_map.mp hc
    exact isDigitCh_digitCh (Nat.digits_lt_base (by norm_num) hd)

theorem map_digitVal_digitCh (l : List Nat) (hl : ∀ d ∈ l, d < 10) :
    (l.map digitCh).map digitVal = l := by
  induction l with
  | nil => rfl
  | cons d l ih =>
      simp only [List.map_cons]
      rw [digitVal_digitCh (hl d (by simp)), ih (fun e he => hl e (by simp [he]))]

theorem parseDigits_natToStr (n : Nat) : parseDigits (natToStr n) = some n := by
  unfold parseDigits
  rw [if_neg (natToStr_ne_nil n), if_pos (natToStr_all_digits n)]
  congr 1
  by_cases h : n = 0
  · subst h; decide
  · rw [natToStr_eq_digits, if_neg h]
    have h1 : ((Nat.digits 10 n).map digitCh).reverse.foldl
        (fun a c => 10 * a + digitVal c) 0
        = (((Nat.digits 10 n).map digitCh).reverse.map digitVal).foldl
          (fun x d => 10 * x + d) 0 := by
      rw [List.foldl_map]
    have h2 : ((Nat.digits 10 n).map digitCh).reverse.map digitVal
        = (Nat.digits 10 n).reverse := by
      rw [List.map_reverse,
        map_digitVal_digitCh _ (fun d hd => Nat.digits_lt_base (by norm_num) hd)]
    rw [h1, h2, foldl_digits_eq_ofDigits]
    simp [Nat.ofDigits_digits]

theorem parseDigits_leading_zeros (k : Nat) {s : Str} {n : Nat}
    (h : parseDigits s = some n) :
    parseDigits (List.replicate k '0' ++ s) = some n := by
  have hne : s ≠ [] := by
    intro hs
    rw [hs] at h
    simp [parseDigits] at h
  have hall : s.all isDigitCh = true := by
    by_contra hc
    unfold parseDigits at h
    rw [if_neg hne, if_neg hc] at h
    exact Option.noConfusion h
  have hval : s.foldl (fun a c => 10 * a + digitVal c) 0 = n := by
    unfold parseDigits at h
    rw [if_neg hne, if_pos hall] at h
    exact Option.some.inj h
  unfold parseDigits
  rw [if_neg (fun hx => hne (List.append_eq_nil.mp hx).2)]
  rw [if_pos (by
    rw [List.all_append, hall]
    simp only [Bool.and_true, List.all_eq_true]
    intro c hc
    rw [(List.eq_of_mem_replicate hc : c = '0')]
    decide)]
  congr 1
  rw [← hval]
  induction k with
  | zero => rfl
  | succ k ih =>
      rw [List.replicate_succ, List.cons_append, List.foldl_cons]
      have h0 : 10 * 0 + digitVal '0' = 0 := by decide
      rw [h0]
      exact ih

theorem splitFirst_eq_none_iff {c : Char} {s : Str} :
    splitFirst c s = none ↔ c ∉ s := by
  induction s with
  | nil => simp [splitFirst]
  | cons x r ih =>
      by_cases hx : x = c
      · subst hx
        simp [splitFirst]
      · rw [splitFirst, if_neg hx]
        constructor
        · intro h
          have hn : splitFirst c r = none := by
            cases hr : splitFirst c r with
            | none => rfl
            | some p => rw [hr] at h; exact Option.noConfusion h
          have hcr : c ∉ r := ih.mp hn
          intro hc
          rcases List.mem_cons.mp hc with hc | hc
          · exact hx hc.symm
          · exact hcr hc
        · intro hc
          rw [ih.mpr (fun hr => hc (List.mem_cons.mpr (Or.inr hr)))]
          rfl

theorem splitFirst_some {c : Char} {s p q : Str}
    (h : splitFirst c s = some (p, q)) : s = p ++ c :: q ∧ c ∉ p := by
  induction s generalizing p with
  | nil => exact Option.noConfusion h
  | cons x r ih =>
      by_cases hx : x = c
      · subst hx
        rw [splitFirst, if_pos rfl] at h
        obtain ⟨rfl, rfl⟩ := Prod.mk.injEq .. ▸ Option.some.inj h
        simp
      · rw [splitFirst, if_neg hx] at h
        cases hr : splitFirst c r with
        | none => rw [hr] at h; exact Option.noConfusion h
        | some pr =>
            rw [hr] at h
            obtain ⟨p', q'⟩ := pr
            have h2 : (x :: p', q') = (p, q) := Option.some.inj h
            obtain ⟨hp, hq⟩ := Prod.mk.injEq .. |>.mp h2
            subst hp
            subst hq
            obtain ⟨hr2, hnp⟩ := ih hr
            refine ⟨by rw [hr2, List.cons_append], ?_⟩
            intro hc
            rcases List.mem_cons.mp hc with hc | hc
            · exact hx hc.symm
            · exact hnp hc

theorem splitFirst_append {c : Char} {a : Str} (b : Str) (ha : c ∉ a) :
    splitFirst c (a ++ c :: b) = some (a, b) := by
  induction a with
  | nil => simp [splitFirst]
  | cons x a ih =>
      have hx : x ≠ c := fun hx => ha (by simp [hx])
      rw [List.cons_append, splitFirst, if_neg hx,
        ih (fun hc => ha (by simp [hc]))]
      rfl

theorem rsplitOnce_eq_none_iff {c : Char} {s : Str} :
    rsplitOnce c s = none ↔ c ∉ s := by
  unfold rsplitOnce
  constructor
  · intro h hc
    cases hr : splitFirst c s.reverse with
    | none =>
        exact splitFirst_eq_none_iff.mp hr (by simpa using hc)
    | some ab =>
        obtain ⟨a, b⟩ := ab
        rw [hr] at h
        exact Option.noConfusion h
  · intro hc
    rw [splitFirst_eq_none_iff.mpr (by simpa using hc)]

theorem rsplitOnce_some {c : Char} {s p q : Str}
    (h : rsplitOnce c s = some (p, q)) : s = p ++ c :: q ∧ c ∉ q := by
  unfold rsplitOnce at h
  cases hr : splitFirst c s.reverse with
  | none => rw [hr] at h; exact Option.noConfusion h
  | some ab =>
      rw [hr] at h
      obtain ⟨a, b⟩ := ab
      simp only [Option.some.injEq, Prod.mk.injEq] at h
      obtain ⟨rfl, rfl⟩ := h
      obtain ⟨hs, hna⟩ := splitFirst_some hr
      constructor
      · have := congrArg List.reverse hs
        simpa using this
      · simpa using hna

theorem rsplitOnce_append {c : Char} (p : Str) {q : Str} (hq : c ∉ q) :
    rsplitOnce c (p ++ c :: q) = some (p, q) := by
  unfold rsplitOnce
  have hrev : (p ++ c :: q).reverse = q.reverse ++ c :: p.reverse := by
    simp
  rw [hrev, splitFirst_append _ (by simpa using hq)]
  simp

theorem splitOnChar_ne_nil (c : Char) (s : Str) : splitOnChar c s ≠ [] := by
  cases s with
  | nil => simp [splitOnChar]
  | cons x r =>
      rw [splitOnChar]
      split
      · simp
      · split <;> simp

theorem splitOnChar_of_not_mem {c : Char} {s : Str} (h : c ∉ s) :
    splitOnChar c s = [s] := by
  induction s with
  | nil => rfl
  | cons x r ih =>
      have hx : x ≠ c := fun hc => h (by simp [hc])
      rw [splitOnChar, if_neg hx, ih (fun hc => h (by simp [hc]))]

theorem splitOnChar_append {c : Char} {a : Str} (b : Str) (ha : c ∉ a) :
    splitOnChar c (a ++ c :: b) = a :: splitOnChar c b := by
  induction a with
  | nil => simp [splitOnChar]
  | cons x a ih =>
      have hx : x ≠ c := fun hc => ha (by simp [hc])
      rw [List.cons_append, splitOnChar, if_neg hx, ih (fun hc => ha (by simp [hc]))]

theorem splitOnChar_interSep {c : Char} {ls : List Str} (hne : ls ≠ [])
    (h : ∀ l ∈ ls, c ∉ l) : splitOnChar c (interSep c ls) = ls := by
  induction ls with
  | nil => exact absurd rfl hne
  | cons l ls ih =>
      cases ls with
      | nil => exact splitOnChar_of_not_mem (h l (by simp))
      | cons l' ls' =>
          rw [show interSep c (l :: l' :: ls') = l ++ c :: interSep c (l' :: ls') from rfl,
            splitOnChar_append _ (h l (by simp)),
            ih (by simp) (fun x hx => h x (by simp [hx]))]

theorem prefixOf_append (p s : Str) : prefixOf p (p ++ s) = true := by
  induction p with
  | nil => rfl
  | cons a p ih => simp [prefixOf, ih]

theorem prefixOf_eq_true_iff {p s : Str} :
    prefixOf p s = true ↔ ∃ t, s = p ++ t := by
  induction p generalizing s with
  | nil => simp [prefixOf]
  | cons a p ih =>
      cases s with
      | nil =>
          simp only [prefixOf]
          constructor
          · intro h; exact Bool.noConfusion h
          · rintro ⟨t, ht⟩; exact List.noConfusion ht
      | cons b t =>
          simp only [prefixOf, Bool.and_eq_true, beq_iff_eq, ih]
          constructor
          · rintro ⟨rfl, u, rfl⟩; exact ⟨u, rfl⟩
          · rintro ⟨u, hu⟩
            injection hu with h1 h2
            exact ⟨h1.symm, u, h2⟩

theorem findSub_of_prefix {pat s : Str} (h : prefixOf pat s = true) :
    findSub pat s = some 0 := by
  cases s with
  | nil => rw [findSub, if_pos h]
  | cons x r => rw [findSub, if_pos h]

theorem findSub_append {pat : Str} (a s : Str) (hpre : prefixOf pat s = true)
    (hno : ∀ i < a.length, prefixOf pat ((a ++ s).drop i) = false) :
    findSub pat (a ++ s) = some a.length := by
  induction a with
  | nil => simpa using findSub_of_prefix hpre
  | cons x a ih =>
      have hx : prefixOf pat (x :: (a ++ s)) = false := by
        have := hno 0 (by simp)
        simpa using this
      rw [List.cons_append, findSub, if_neg (by simp [hx])]
      rw [ih (fun i hi => by
        have := hno (i + 1) (by simp only [List.length_cons]; omega)
        simpa using this)]
      rfl

theorem dropWhile_append_all {p : Char → Bool} {l : Str} (r : Str)
    (h : ∀ x ∈ l, p x = true) : (l ++ r).dropWhile p = r.dropWhile p := by
  induction l with
  | nil => rfl
  | cons x l ih =>
      rw [List.cons_append, List.dropWhile_cons, if_pos (by simp [h x (by simp)])]
      exact ih (fun x hx => h x (by simp [hx]))

theorem dropWhile_cons_false {p : Char → Bool} {c : Char} (h : p c = false) (s : Str) :
    (c :: s).dropWhile p = c :: s := by
  rw [List.dropWhile_cons, if_neg (by simp [h])]

theorem trimLeft_cons {c : Char} (h : isWs c = false) (s : Str) :
    trimLeft (c :: s) = c :: s := dropWhile_cons_false h s

theorem trimLeft_ws_prefix {l : Str} (h : ∀ x ∈ l, isWs x = true) (s : Str) :
    trimLeft (l ++ s) = trimLeft s := dropWhile_append_all s h

theorem trimRight_concat_ws (A : Str) {c : Char} (hc : isWs c = false) {B : Str}
    (hB : ∀ b ∈ B, isWs b = true) : trimRight (A ++ c :: B) = A ++ [c] := by
  unfold trimRight
  rw [show (A ++ c :: B).reverse = B.reverse ++ c :: A.reverse by simp,
    dropWhile_append_all _ (fun b hb => hB b (List.mem_reverse.mp hb)),
    dropWhile_cons_false hc]
  simp

theorem trimRight_length_le (s : Str) : (trimRight s).length ≤ s.length := by
  unfold trimRight
  calc (s.reverse.dropWhile isWs).reverse.length
      = (s.reverse.dropWhile isWs).length := by rw [List.length_reverse]
    _ ≤ s.reverse.length := (List.dropWhile_sublist _).length_le
    _ = s.length := by rw [List.length_reverse]

theorem trimLeft_length_le (s : Str) : (trimLeft s).length ≤ s.length :=
  (List.dropWhile_sublist _).length_le

theorem eq_of_prefix_length {a b : Str} (h : a <+: b) (hl : b.length ≤ a.length) :
    a = b := by
  obtain ⟨t, rfl⟩ := h
  have ht : t = [] := by
    rw [List.length_append] at hl
    exact List.length_eq_zero.mp (by omega)
  simp [ht]

theorem trimRight_prefix (s : Str) : trimRight s <+: s := by
  unfold trimRight
  have h : s.reverse.dropWhile isWs <:+ s.reverse := List.dropWhile_suffix _
  obtain ⟨t, ht⟩ := h
  refine ⟨t.reverse, ?_⟩
  have h2 := congrArg List.reverse ht
  simpa using h2

theorem trimLeft_suffix (s : Str) : trimLeft s <:+ s := List.dropWhile_suffix ..

theorem eq_of_suffix_length {a b : Str} (h : a <:+ b) (hl : b.length ≤ a.length) :
    a = b := by
  obtain ⟨t, rfl⟩ := h
  have ht : t = [] := by
    rw [List.length_append] at hl
    exact List.length_eq_zero.mp (by omega)
  simp [ht]

theorem trim_eq_self_parts {s : Str} (h : trim s = s) :
    trimLeft s = s ∧ trimRight s = s := by
  have h1 := trimLeft_length_le s
  have h2 := trimRight_length_le (trimLeft s)
  have h3 : (trim s).length = s.length := by rw [h]
  unfold trim at h3
  have hL : trimLeft s = s := eq_of_suffix_length (trimLeft_suffix s) (by omega)
  refine ⟨hL, ?_⟩
  have : trim s = trimRight s := by unfold trim; rw [hL]
  rw [← this, h]

theorem head_not_ws_of_trimLeft {c : Char} {r : Str}
    (h : trimLeft (c :: r) = c :: r) : isWs c = false := by
  by_contra hc
  have hc' : isWs c = true := by
    cases hw : isWs c
    · exact absurd hw hc
    · rfl
  unfold trimLeft at h
  rw [List.dropWhile_cons, if_pos (by simp [hc'])] at h
  have hlen := congrArg List.length h
  have h2 : (r.dropWhile isWs).length ≤ r.length := (List.dropWhile_sublist _).length_le
  simp only [List.length_cons] at hlen
  omega

theorem last_not_ws_of_trimRight {A : Str} {c : Char}
    (h : trimRight (A ++ [c]) = A ++ [c]) : isWs c = false := by
  by_contra hc
  have hc' : isWs c = true := by
    cases hw : isWs c
    · exact absurd hw hc
    · rfl
  have heq : trimRight (A ++ [c]) = trimRight A := by
    unfold trimRight
    rw [List.reverse_append, show ([c] : Str).reverse = [c] from rfl,
      List.singleton_append, List.dropWhile_cons, if_pos (by simp [hc'])]
  rw [heq] at h
  have := congrArg List.length h
  have h2 := trimRight_length_le A
  simp only [List.length_append, List.length_cons, List.length_nil] at this
  omega

theorem statusOfStr_statusStr (x : TaskStatus) : statusOfStr (statusStr x) = some x := by
  cases x <;> decide

theorem priorityOfStr_priorityStr (x : Priority) : priorityOfStr (priorityStr x) = some x := by
  cases x <;> decide

theorem kindOfStr_kindStr (x : TaskKind) : kindOfStr (kindStr x) = some x := by
  cases x <;> decide

theorem parseDigits_padZeros (w n : Nat) : parseDigits (padZeros w n) = some n :=
  parseDigits_leading_zeros _ (parseDigits_natToStr n)

theorem padZeros_ne_nil (w n : Nat) : padZeros w n ≠ [] := fun h =>
  natToStr_ne_nil n (List.append_eq_nil.mp h).2

theorem padZeros_all_digits (w n : Nat) : (padZeros w n).all isDigitCh = true := by
  unfold padZeros
  rw [List.all_append, natToStr_all_digits]
  simp only [Bool.and_true, List.all_eq_true]
  intro c hc
  rw [(List.eq_of_mem_replicate hc : c = '0')]
  decide

theorem not_mem_of_all_digits {s : Str} {c : Char} (hs : s.all isDigitCh = true)
    (hc : isDigitCh c = false) : c ∉ s := by
  intro hm
  have h2 := List.all_eq_true.mp hs c hm
  rw [hc] at h2
  exact Bool.noConfusion h2

theorem natToStr_length_le {n k : Nat} (hk : 1 ≤ k) (h : n < 10 ^ k) :
    (natToStr n).length ≤ k := by
  rw [natToStr_eq_digits]
  split
  · simpa using hk
  · next hn =>
    simp only [List.length_reverse, List.length_map]
    rw [Nat.digits_len 10 n (by norm_num) hn]
    have h2 := Nat.log_lt_of_lt_pow hn h
    omega

theorem padZeros_length {w n : Nat} (h : (natToStr n).length ≤ w) :
    (padZeros w n).length = w := by
  unfold padZeros
  rw [List.length_append, List.length_replicate]
  omega

theorem escape_not_mem_newline (s : Str) : '\n' ∉ escape s := by
  induction s with
  | nil => simp [escape]
  | cons c r ih =>
      rw [escape]
      intro hm
      rcases List.mem_append.mp hm with hm | hm
      · unfold escChar at hm
        split at hm
        · simp at hm
        · split at hm
          · simp at hm
          · split at hm
            · simp at hm
            · next h1 h2 h3 =>
                rcases List.mem_singleton.mp hm with rfl
                exact h3 rfl
      · exact ih hm

theorem unescape_escape (s : Str) : unescape (escape s ++ ['\"']) = some s := by
  induction s with
  | nil => decide
  | cons c r ih =>
      rw [escape]
      by_cases h1 : c = '\\'
      · subst h1
        rw [show (escChar '\\' ++ escape r) ++ ['\"']
            = '\\' :: ('\\' :: (escape r ++ ['\"'])) by simp [escChar]]
        simp [unescape, unescChar, ih]
      by_cases h2 : c = '\"'
      · subst h2
        rw [show (escChar '\"' ++ escape r) ++ ['\"']
            = '\\' :: ('\"' :: (escape r ++ ['\"'])) by simp [escChar]]
        simp [unescape, unescChar, ih]
      by_cases h3 : c = '\n'
      · subst h3
        rw [show (escChar '\n' ++ escape r) ++ ['\"']
            = '\\' :: ('n' :: (escape r ++ ['\"'])) by simp [escChar]]
        simp [unescape, unescChar, ih]
      · rw [show (escChar c ++ escape r) ++ ['\"'] = c :: (escape r ++ ['\"']) by
          simp [escChar, h1, h2, h3]]
        rw [unescape.eq_def]
        simp [h1, h2, ih]

theorem parseVal_renderVal (s : Str) : parseVal (renderVal s) = some s := by
  unfold renderVal
  by_cases hp : plainSafe s = true
  · rw [if_pos hp]
    cases s with
    | nil => rfl
    | cons c r =>
        have hc : c ≠ '\"' := by
          intro hc
          subst hc
          unfold plainSafe at hp
          simp only [Bool.and_eq_true, List.all_eq_true] at hp
          have := hp.1.1.2 '\"' (by simp)
          revert this
          decide
        rw [parseVal, if_neg hc]
  · rw [if_neg hp, parseVal, if_pos rfl]
    exact unescape_escape s

theorem renderVal_not_mem_newline (s : Str) : '\n' ∉ renderVal s := by
  unfold renderVal
  split
  · next hp =>
    intro hm
    unfold plainSafe at hp
    simp only [Bool.and_eq_true, List.all_eq_true] at hp
    have := hp.1.1.2 '\n' hm
    revert this
    decide
  · intro hm
    rcases List.mem_cons.mp hm with hm | hm
    · exact absurd hm (by decide)
    · rcases List.mem_append.mp hm with hm | hm
      · exact escape_not_mem_newline s hm
      · exact absurd (List.mem_singleton.mp hm) (by decide)

theorem mem_padZeros {c : Char} {w n : Nat} (h : c ∈ padZeros w n) :
    isDigitCh c = true := by
  rcases List.mem_append.mp h with h | h
  · rw [(List.eq_of_mem_replicate h : c = '0')]; decide
  · exact List.all_eq_true.mp (natToStr_all_digits n) c h

theorem mem_renderDate {c : Char} {d : Date} (h : c ∈ renderDate d) :
    isDigitCh c = true ∨ c = '-' := by
  unfold renderDate at h
  rcases List.mem_append.mp h with h | h
  · exact Or.inl (mem_padZeros h)
  · rcases List.mem_cons.mp h with h | h
    · exact Or.inr h
    · rcases List.mem_append.mp h with h | h
      · exact Or.inl (mem_padZeros h)
      · rcases List.mem_cons.mp h with h | h
        · exact Or.inr h
        · exact Or.inl (mem_padZeros h)

theorem mem_renderFrac {c : Char} {n : Nat} (h : c ∈ renderFrac n) :
    isDigitCh c = true ∨ c = '.' := by
  unfold renderFrac at h
  split at h
  · simp at h
  · split at h
    · rcases List.mem_cons.mp h with h | h
      · exact Or.inr h
      · exact Or.inl (mem_padZeros h)
    · split at h
      · rcases List.mem_cons.mp h with h | h
        · exact Or.inr h
        · exact Or.inl (mem_padZeros h)
      · rcases List.mem_cons.mp h with h | h
        · exact Or.inr h
        · exact Or.inl (mem_padZeros h)

theorem mem_timePart {c : Char} {t : Timestamp} (h : c ∈ timePart t) :
    isDigitCh c = true ∨ c = ':' ∨ c = '.' := by
  unfold timePart at h
  rcases List.mem_append.mp h with h | h
  · exact Or.inl (mem_padZeros h)
  · rcases List.mem_cons.mp h with h | h
    · exact Or.inr (Or.inl h)
    · rcases List.mem_append.mp h with h | h
      · exact Or.inl (mem_padZeros h)
      · rcases List.mem_cons.mp h with h | h
        · exact Or.inr (Or.inl h)
        · rcases List.mem_append.mp h with h | h
          · exact Or.inl (mem_padZeros h)
          · rcases mem_renderFrac h with h | h
            · exact Or.inl h
            · exact Or.inr (Or.inr h)

theorem parseDate_renderDate (d : Date) : parseDate (renderDate d) = some d := by
  obtain ⟨y, m, dd⟩ := d
  unfold parseDate renderDate
  rw [splitOnChar_append _ (not_mem_of_all_digits (padZeros_all_digits 4 y) (by decide)),
    splitOnChar_append _ (not_mem_of_all_digits (padZeros_all_digits 2 m) (by decide)),
    splitOnChar_of_not_mem (not_mem_of_all_digits (padZeros_all_digits 2 dd) (by decide))]
  simp [parseDigits_padZeros]

theorem parseFrac_padZeros {v w : Nat} (hw : w ≤ 9) (hlen : (natToStr v).length ≤ w) :
    parseFrac (padZeros w v) = some (v * 10 ^ (9 - w)) := by
  unfold parseFrac
  rw [padZeros_length hlen, if_pos hw, parseDigits_padZeros]
  rfl

theorem parseTS_renderTS {t : Timestamp} (h : t.nanos < 10 ^ 9) :
    parseTS (renderTS t) = some t := by
  obtain ⟨date, hh, mm, ss, nanos⟩ := t
  simp only at h
  unfold parseTS renderTS
  have hTd : 'T' ∉ renderDate date := by
    intro hm
    rcases mem_renderDate hm with hm | hm
    · revert hm; decide
    · exact absurd hm (by decide)
  have hTr : 'T' ∉ timePart ⟨date, hh, mm, ss, nanos⟩ ++ ['Z'] := by
    intro hm
    rcases List.mem_append.mp hm with hm | hm
    · rcases mem_timePart hm with hm | hm | hm
      · revert hm; decide
      · exact absurd hm (by decide)
      · exact absurd hm (by decide)
    · exact absurd (List.mem_singleton.mp hm) (by decide)
  rw [splitOnChar_append _ hTd, splitOnChar_of_not_mem hTr]
  simp only [parseDate_renderDate]
  rw [if_pos (by rw [List.getLast?_concat]), List.dropLast_concat]
  have h1 : ':' ∉ padZeros 2 hh :=
    not_mem_of_all_digits (padZeros_all_digits 2 hh) (by decide)
  have h2 : ':' ∉ padZeros 2 mm :=
    not_mem_of_all_digits (padZeros_all_digits 2 mm) (by decide)
  have h3 : ':' ∉ padZeros 2 ss ++ renderFrac nanos := by
    intro hm
    rcases List.mem_append.mp hm with hm | hm
    · have := mem_padZeros hm; revert this; decide
    · rcases mem_renderFrac hm with hm | hm
      · revert hm; decide
      · exact absurd hm (by decide)
  rw [show timePart ⟨date, hh, mm, ss, nanos⟩
      = padZeros 2 hh ++ ':' :: (padZeros 2 mm ++ ':' :: (padZeros 2 ss ++ renderFrac nanos))
      from rfl]
  rw [splitOnChar_append _ h1, splitOnChar_append _ h2, splitOnChar_of_not_mem h3]
  simp only [parseDigits_padZeros]
  by_cases h0 : nanos = 0
  · subst h0
    rw [show renderFrac 0 = [] from rfl, List.append_nil,
      splitOnChar_of_not_mem (not_mem_of_all_digits (padZeros_all_digits 2 ss) (by decide))]
    simp [parseDigits_padZeros]
  · by_cases h6 : nanos % 1000000 = 0
    · rw [show renderFrac nanos = '.' :: padZeros 3 (nanos / 1000000) by
        unfold renderFrac; rw [if_neg h0, if_pos h6]]
      rw [splitOnChar_append _ (not_mem_of_all_digits (padZeros_all_digits 2 ss) (by decide)),
        splitOnChar_of_not_mem
          (not_mem_of_all_digits (padZeros_all_digits 3 (nanos / 1000000)) (by decide))]
      simp only [parseDigits_padZeros,
        parseFrac_padZeros (show (3 : Nat) ≤ 9 by norm_num)
          (natToStr_length_le (show (1 : Nat) ≤ 3 by norm_num)
            (show nanos / 1000000 < 10 ^ 3 by omega))]
      have hv : nanos / 1000000 * 10 ^ (9 - 3) = nanos := by
        rw [show (10 : Nat) ^ (9 - 3) = 1000000 by norm_num]
        exact Nat.div_mul_cancel (Nat.dvd_of_mod_eq_zero h6)
      rw [hv]
    · by_cases h33 : nanos % 1000 = 0
      · rw [show renderFrac nanos = '.' :: padZeros 6 (nanos / 1000) by
          unfold renderFrac; rw [if_neg h0, if_neg h6, if_pos h33]]
        rw [splitOnChar_append _ (not_mem_of_all_digits (padZeros_all_digits 2 ss) (by decide)),
          splitOnChar_of_not_mem
            (not_mem_of_all_digits (padZeros_all_digits 6 (nanos / 1000)) (by decide))]
        simp only [parseDigits_padZeros,
          parseFrac_padZeros (show (6 : Nat) ≤ 9 by norm_num)
            (natToStr_length_le (show (1 : Nat) ≤ 6 by norm_num)
              (show nanos / 1000 < 10 ^ 6 by omega))]
        have hv : nanos / 1000 * 10 ^ (9 - 6) = nanos := by
          rw [show (10 : Nat) ^ (9 - 6) = 1000 by norm_num]
          exact Nat.div_mul_cancel (Nat.dvd_of_mod_eq_zero h33)
        rw [hv]
      · rw [show renderFrac nanos = '.' :: padZeros 9 nanos by
          unfold renderFrac; rw [if_neg h0, if_neg h6, if_neg h33]]
        rw [splitOnChar_append _ (not_mem_of_all_digits (padZeros_all_digits 2 ss) (by decide)),
          splitOnChar_of_not_mem
            (not_mem_of_all_digits (padZeros_all_digits 9 nanos) (by decide))]
        simp only [parseDigits_padZeros,
          parseFrac_padZeros (show (9 : Nat) ≤ 9 by norm_num)
            (natToStr_length_le (show (1 : Nat) ≤ 9 by norm_num)
              (show nanos < 10 ^ 9 by omega))]
        have hv : nanos * 10 ^ (9 - 9) = nanos := by norm_num
        rw [hv]

theorem prefixOf_cons_false {a b : Char} (h : a ≠ b) (p t : Str) :
    prefixOf (a :: p) (b :: t) = false := by
  unfold prefixOf
  rw [show (a == b) = false by simpa using h, Bool.false_and]

theorem delim3_not_prefix_append {l : Str} (hl : prefixOf delim3 l = false) (r : Str) :
    prefixOf delim3 (l ++ '\n' :: r) = false := by
  match l with
  | [] =>
      rw [List.nil_append]
      exact prefixOf_cons_false (by decide) _ _
  | [a] =>
      show prefixOf delim3 (a :: '\n' :: r) = false
      simp only [delim3, prefixOf, show ('-' == '\n') = false by decide,
        Bool.false_and, Bool.and_false]
  | [a, b] =>
      show prefixOf delim3 (a :: b :: '\n' :: r) = false
      simp only [delim3, prefixOf, show ('-' == '\n') = false by decide,
        Bool.false_and, Bool.and_false]
  | a :: b :: c :: l' =>
      show prefixOf delim3 (a :: b :: c :: (l' ++ '\n' :: r)) = false
      unfold delim3 prefixOf at hl ⊢
      simpa using (by simpa using hl)

theorem no_early_delim (ls : List Str)
    (hls : ∀ l ∈ ls, '\n' ∉ l ∧ prefixOf delim3 l = false) (X : Str) :
    ∀ i < (interSep '\n' ls).length,
      prefixOf ('\n' :: delim3) ((interSep '\n' ls ++ '\n' :: X).drop i) = false := by
  induction ls generalizing X with
  | nil => intro i hi; simp [interSep] at hi
  | cons l ls ih =>
      intro i hi
      cases ls with
      | nil =>
          rw [show interSep '\n' [l] = l from rfl] at hi ⊢
          rw [List.drop_append_of_le_length (Nat.le_of_lt hi),
            List.drop_eq_getElem_cons hi, List.cons_append]
          refine prefixOf_cons_false ?_ _ _
          intro hc
          have hm : l[i] ∈ l := List.getElem_mem hi
          rw [← hc] at hm
          exact (hls l (by simp)).1 hm
      | cons l' ls' =>
          rw [show interSep '\n' (l :: l' :: ls') = l ++ '\n' :: interSep '\n' (l' :: ls')
            from rfl] at hi ⊢
          rw [show (l ++ '\n' :: interSep '\n' (l' :: ls')) ++ '\n' :: X
              = l ++ '\n' :: (interSep '\n' (l' :: ls') ++ '\n' :: X) by simp]
          rcases Nat.lt_trichotomy i l.length with hlt | heq | hgt
          · rw [List.drop_append_of_le_length (Nat.le_of_lt hlt),
              List.drop_eq_getElem_cons hlt, List.cons_append]
            refine prefixOf_cons_false ?_ _ _
            intro hc
            have hm : l[i] ∈ l := List.getElem_mem hlt
            rw [← hc] at hm
            exact (hls l (by simp)).1 hm
          · subst heq
            rw [List.drop_append_of_le_length (Nat.le_refl _), List.drop_length,
              List.nil_append]
            show prefixOf ('\n' :: delim3) ('\n' :: (interSep '\n' (l' :: ls') ++ '\n' :: X))
              = false
            have hsplit : ∃ Y, interSep '\n' (l' :: ls') ++ '\n' :: X = l' ++ '\n' :: Y := by
              cases ls' with
              | nil => exact ⟨X, rfl⟩
              | cons l'' ls'' =>
                  refine ⟨interSep '\n' (l'' :: ls'') ++ '\n' :: X, ?_⟩
                  rw [show interSep '\n' (l' :: l'' :: ls'')
                      = l' ++ '\n' :: interSep '\n' (l'' :: ls'') from rfl]
                  simp
            obtain ⟨Y, hY⟩ := hsplit
            rw [hY]
            unfold prefixOf
            rw [show ('\n' == '\n') = true by decide, Bool.true_and]
            exact delim3_not_prefix_append (hls l' (by simp)).2 Y
          · have hj : i - (l.length + 1) < (interSep '\n' (l' :: ls')).length := by
              simp only [List.length_append, List.length_cons] at hi
              omega
            rw [show l ++ '\n' :: (interSep '\n' (l' :: ls') ++ '\n' :: X)
                = (l ++ ['\n']) ++ (interSep '\n' (l' :: ls') ++ '\n' :: X) by simp]
            rw [show i = (l ++ ['\n']).length + (i - (l.length + 1)) by
              simp only [List.length_append, List.length_cons, List.length_nil]
              omega]
            rw [List.drop_append]
            exact ih (fun x hx => hls x (by simp [hx])) X _ hj

theorem findSub_serial (ls : List Str)
    (hls : ∀ l ∈ ls, '\n' ∉ l ∧ prefixOf delim3 l = false) (X : Str) :
    findSub ('\n' :: delim3) (interSep '\n' ls ++ '\n' :: (delim3 ++ X))
      = some (interSep '\n' ls).length := by
  apply findSub_append
  · show prefixOf ('\n' :: delim3) ('\n' :: (delim3 ++ X)) = true
    unfold prefixOf
    rw [show ('\n' == '\n') = true by decide, Bool.true_and]
    exact prefixOf_append delim3 X
  · exact no_early_delim ls hls (delim3 ++ X)

theorem joinNL_eq_interSep {ls : List Str} (h : ls ≠ []) :
    joinNL ls = interSep '\n' ls ++ ['\n'] := by
  induction ls with
  | nil => exact absurd rfl h
  | cons l ls ih =>
      cases ls with
      | nil => rfl
      | cons l' ls' =>
          rw [joinNL, ih (by simp),
            show interSep '\n' (l :: l' :: ls') = l ++ '\n' :: interSep '\n' (l' :: ls')
              from rfl]
          simp

theorem trimRight_append_allws {s w : Str} (hne : s ≠ [])
    (hlast : isWs (s.getLast hne) = false) (hw : ∀ c ∈ w, isWs c = true) :
    trimRight (s ++ w) = s := by
  conv_lhs => rw [← List.dropLast_append_getLast hne]
  rw [List.append_assoc, List.singleton_append, trimRight_concat_ws _ hlast hw]
  exact List.dropLast_append_getLast hne

theorem not_newline_renderKV {k v : Str} (hk : '\n' ∉ k) (hv : '\n' ∉ v) :
    '\n' ∉ renderKV k v := by
  unfold renderKV
  intro hm
  rcases List.mem_append.mp hm with hm | hm
  · exact hk hm
  · rcases List.mem_cons.mp hm with hm | hm
    · exact absurd hm (by decide)
    · rcases List.mem_cons.mp hm with hm | hm
      · exact absurd hm (by decide)
      · exact hv hm

theorem prefixOf_delim3_renderKV {k v : Str} {c : Char} {k' : Str}
    (hk : k = c :: k') (hc : c ≠ '-') : prefixOf delim3 (renderKV k v) = false := by
  subst hk
  show prefixOf delim3 ((c :: k') ++ ':' :: ' ' :: v) = false
  rw [List.cons_append]
  exact prefixOf_cons_false (fun h => hc h.symm) _ _

theorem prefixOf_delim3_item (v : Str) : prefixOf delim3 ('-' :: ' ' :: v) = false := by
  simp only [delim3, prefixOf, show ('-' == '-') = true by decide,
    show ('-' == ' ') = false by decide, Bool.true_and, Bool.false_and, Bool.and_false]

theorem not_newline_natToStr (n : Nat) : '\n' ∉ natToStr n :=
  not_mem_of_all_digits (natToStr_all_digits n) (by decide)

theorem not_newline_renderDate (d : Date) : '\n' ∉ renderDate d := by
  intro hm
  rcases mem_renderDate hm with hm | hm
  · revert hm; decide
  · exact absurd hm (by decide)

theorem not_newline_renderTS (t : Timestamp) : '\n' ∉ renderTS t := by
  unfold renderTS
  intro hm
  rcases List.mem_append.mp hm with hm | hm
  · exact not_newline_renderDate _ hm
  · rcases List.mem_cons.mp hm with hm | hm
    · exact absurd hm (by decide)
    · rcases List.mem_append.mp hm with hm | hm
      · rcases mem_timePart hm with hm | hm | hm
        · revert hm; decide
        · exact absurd hm (by decide)
        · exact absurd hm (by decide)
      · exact absurd (List.mem_singleton.mp hm) (by decide)

theorem not_newline_statusStr (x : TaskStatus) : '\n' ∉ statusStr x := by
  cases x <;> decide

theorem not_newline_priorityStr (x : Priority) : '\n' ∉ priorityStr x := by
  cases x <;> decide

theorem not_newline_kindStr (x : TaskKind) : '\n' ∉ kindStr x := by
  cases x <;> decide

theorem renderFM_lines_ok (t : Task) :
    ∀ l ∈ renderFM t, '\n' ∉ l ∧ prefixOf delim3 l = false := by
  intro l hl
  unfold renderFM at hl
  rcases List.mem_cons.mp hl with rfl | hl
  · exact ⟨not_newline_renderKV (by decide) (not_newline_natToStr _),
      prefixOf_delim3_renderKV rfl (by decide)⟩
  rcases List.mem_cons.mp hl with rfl | hl
  · exact ⟨not_newline_renderKV (by decide) (renderVal_not_mem_newline _),
      prefixOf_delim3_renderKV rfl (by decide)⟩
  rcases List.mem_cons.mp hl with rfl | hl
  · exact ⟨not_newline_renderKV (by decide) (not_newline_statusStr _),
      prefixOf_delim3_renderKV rfl (by decide)⟩
  rcases List.mem_cons.mp hl with rfl | hl
  · exact ⟨not_newline_renderKV (by decide) (not_newline_priorityStr _),
      prefixOf_delim3_renderKV rfl (by decide)⟩
  rcases List.mem_cons.mp hl with rfl | hl
  · exact ⟨not_newline_renderKV (by decide) (not_newline_kindStr _),
      prefixOf_delim3_renderKV rfl (by decide)⟩
  rcases List.mem_append.mp hl with hl | hl
  · by_cases htags : t.tags = []
    · rw [if_pos htags] at hl
      simp at hl
    · rw [if_neg htags] at hl
      rcases List.mem_cons.mp hl with rfl | hl
      · exact ⟨by decide, by decide⟩
      · obtain ⟨tg, _, rfl⟩ := List.mem_map.mp hl
        refine ⟨?_, prefixOf_delim3_item _⟩
        intro hm
        rcases List.mem_cons.mp hm with hm | hm
        · exact absurd hm (by decide)
        · rcases List.mem_cons.mp hm with hm | hm
          · exact absurd hm (by decide)
          · exact renderVal_not_mem_newline _ hm
  rcases List.mem_append.mp hl with hl | hl
  · cases hdue : t.due with
    | none => rw [hdue] at hl; simp at hl
    | some d =>
        rw [hdue] at hl
        rcases List.mem_singleton.mp hl with rfl
        exact ⟨not_newline_renderKV (by decide) (not_newline_renderDate _),
          prefixOf_delim3_renderKV rfl (by decide)⟩
  rcases List.mem_cons.mp hl with rfl | hl
  · exact ⟨not_newline_renderKV (by decide) (not_newline_renderTS _),
      prefixOf_delim3_renderKV rfl (by decide)⟩
  rcases List.mem_cons.mp hl with rfl | hl
  · exact ⟨not_newline_renderKV (by decide) (not_newline_renderTS _),
      prefixOf_delim3_renderKV rfl (by decide)⟩
  cases hcc : t.closed_commit with
  | none => rw [hcc] at hl; simp at hl
  | some c =>
      rw [hcc] at hl
      rcases List.mem_singleton.mp hl with rfl
      exact ⟨not_newline_renderKV (by decide) (renderVal_not_mem_newline _),
        prefixOf_delim3_renderKV rfl (by decide)⟩

theorem trim_nl_nl (desc : Str) : trim ('\n' :: '\n' :: desc) = trim desc := by
  unfold trim
  rw [show trimLeft ('\n' :: '\n' :: desc) = trimLeft desc by
    unfold trimLeft
    rw [List.dropWhile_cons, if_pos (by decide), List.dropWhile_cons, if_pos (by decide)]]

theorem trimLeft_delim3 (Y : Str) : trimLeft (delim3 ++ Y) = delim3 ++ Y := by
  show trimLeft ('-' :: ('-' :: ('-' :: Y))) = '-' :: ('-' :: ('-' :: Y))
  exact trimLeft_cons (by decide) _

theorem dropWhile_nl_head {A Z : Str} {c : Char} {A' : Str} (hA : A = c :: A')
    (hc : c ≠ '\n') :
    (A ++ Z).dropWhile (fun x => x = '\n') = A ++ Z := by
  subst hA
  rw [List.cons_append]
  exact dropWhile_cons_false (by simp [hc]) _

theorem splitFrontmatter_serializeTask (t : Task)
    (hdr : trimRight t.description = t.description) :
    splitFrontmatter (serializeTask t)
      = some (interSep '\n' (renderFM t),
          if t.description = [] then [] else '\n' :: '\n' :: t.description) := by
  have hne : renderFM t ≠ [] := by unfold renderFM; simp
  have hok := renderFM_lines_ok t
  have hser : serializeTask t
      = delim3 ++ '\n' :: (interSep '\n' (renderFM t) ++ '\n' :: (delim3 ++ '\n'
          :: (if t.description = [] then [] else '\n' :: (t.description ++ ['\n'])))) := by
    unfold serializeTask
    rw [joinNL_eq_interSep hne]
    simp [List.append_assoc]
  have hAhead : ∃ A', interSep '\n' (renderFM t) = 'i' :: A' := by
    unfold renderFM
    exact ⟨_, rfl⟩
  obtain ⟨A', hA'⟩ := hAhead
  by_cases hde : t.description = []
  · rw [hser, if_pos hde]
    have htr : trim (delim3 ++ '\n' :: (interSep '\n' (renderFM t)
          ++ '\n' :: (delim3 ++ '\n' :: [])))
        = delim3 ++ '\n' :: (interSep '\n' (renderFM t) ++ '\n' :: delim3) := by
      unfold trim
      rw [trimLeft_delim3]
      rw [show delim3 ++ '\n' :: (interSep '\n' (renderFM t) ++ '\n' :: (delim3 ++ '\n' :: []))
          = (delim3 ++ '\n' :: (interSep '\n' (renderFM t) ++ '\n' :: ['-', '-']))
              ++ '-' :: ['\n'] by simp [delim3, List.append_assoc]]
      rw [trimRight_concat_ws _ (by decide) (by
        intro b hb
        rcases List.mem_singleton.mp hb with rfl
        decide)]
      simp [delim3, List.append_assoc]
    unfold splitFrontmatter
    rw [htr]
    rw [if_pos (prefixOf_append delim3 _)]
    rw [show (delim3 ++ '\n' :: (interSep '\n' (renderFM t) ++ '\n' :: delim3)).drop 3
        = '\n' :: (interSep '\n' (renderFM t) ++ '\n' :: delim3) from rfl]
    rw [show ('\n' :: (interSep '\n' (renderFM t) ++ '\n' :: delim3)).dropWhile
          (fun x => x = '\n')
        = (interSep '\n' (renderFM t) ++ '\n' :: delim3).dropWhile (fun x => x = '\n') by
      rw [List.dropWhile_cons, if_pos (by decide)]]
    rw [dropWhile_nl_head hA' (by decide)]
    rw [show interSep '\n' (renderFM t) ++ '\n' :: delim3
        = interSep '\n' (renderFM t) ++ '\n' :: (delim3 ++ []) by simp]
    rw [findSub_serial _ hok []]
    change some _ = some _
    rw [List.append_nil, List.take_left]
    rw [if_neg (by
      simp only [List.length_append, List.length_cons, delim3, List.length_nil]
      omega)]
    rw [if_pos hde]
  · rw [hser, if_neg hde]
    rcases List.eq_nil_or_concat t.description with hnil | ⟨D, c, hDc⟩
    · exact absurd hnil hde
    rw [List.concat_eq_append] at hDc
    have hcws : isWs c = false := by
      have h2 : trimRight (D ++ [c]) = D ++ [c] := by
        rw [← hDc]
        exact hdr
      exact last_not_ws_of_trimRight h2
    have htr : trim (delim3 ++ '\n' :: (interSep '\n' (renderFM t)
          ++ '\n' :: (delim3 ++ '\n' :: ('\n' :: (t.description ++ ['\n'])))))
        = delim3 ++ '\n' :: (interSep '\n' (renderFM t)
            ++ '\n' :: (delim3 ++ '\n' :: ('\n' :: t.description))) := by
      unfold trim
      rw [trimLeft_delim3]
      rw [hDc]
      rw [show delim3 ++ '\n' :: (interSep '\n' (renderFM t)
            ++ '\n' :: (delim3 ++ '\n' :: ('\n' :: ((D ++ [c]) ++ ['\n']))))
          = (delim3 ++ '\n' :: (interSep '\n' (renderFM t)
              ++ '\n' :: (delim3 ++ '\n' :: ('\n' :: D)))) ++ c :: ['\n'] by
        simp [List.append_assoc]]
      rw [trimRight_concat_ws _ hcws (by
        intro b hb
        rcases List.mem_singleton.mp hb with rfl
        decide)]
      simp [List.append_assoc]
    unfold splitFrontmatter
    rw [htr]
    rw [if_pos (prefixOf_append delim3 _)]
    rw [show (delim3 ++ '\n' :: (interSep '\n' (renderFM t)
          ++ '\n' :: (delim3 ++ '\n' :: ('\n' :: t.description)))).drop 3
        = '\n' :: (interSep '\n' (renderFM t)
            ++ '\n' :: (delim3 ++ '\n' :: ('\n' :: t.description))) from rfl]
    rw [show ('\n' :: (interSep '\n' (renderFM t)
          ++ '\n' :: (delim3 ++ '\n' :: ('\n' :: t.description)))).dropWhile
          (fun x => x = '\n')
        = (interSep '\n' (renderFM t)
            ++ '\n' :: (delim3 ++ '\n' :: ('\n' :: t.description))).dropWhile
            (fun x => x = '\n') by
      rw [List.dropWhile_cons, if_pos (by decide)]]
    rw [dropWhile_nl_head hA' (by decide)]
    rw [findSub_serial _ hok ('\n' :: ('\n' :: t.description))]
    change some _ = some _
    rw [List.take_left]
    rw [if_pos (by
      simp only [List.length_append, List.length_cons, delim3, List.length_nil]
      omega)]
    rw [show interSep '\n' (renderFM t)
          ++ '\n' :: (delim3 ++ '\n' :: ('\n' :: t.description))
        = (interSep '\n' (renderFM t) ++ '\n' :: delim3)
            ++ '\n' :: ('\n' :: t.description) by simp [List.append_assoc]]
    rw [show (interSep '\n' (renderFM t)).length + 1 + 3
        = (interSep '\n' (renderFM t) ++ '\n' :: delim3).length by
      simp only [List.length_append, List.length_cons, delim3, List.length_nil]]
    rw [List.drop_left]
    rw [if_neg hde]

theorem splitKV_renderKV {k : Str} (hk : ':' ∉ k) (v : Str) :
    splitKV (renderKV k v) = some (k, v) := by
  unfold splitKV renderKV
  rw [show k ++ ':' :: ' ' :: v = k ++ ':' :: (' ' :: v) from rfl,
    splitFirst_append _ hk]
  rfl

theorem splitKV_colon {k : Str} (hk : ':' ∉ k) :
    splitKV (k ++ [':']) = some (k, []) := by
  unfold splitKV
  rw [show k ++ [':'] = k ++ ':' :: ([] : Str) from rfl, splitFirst_append _ hk]

theorem parseVal_not_quote {s : Str} (h : s.head? ≠ some '\"') : parseVal s = some s := by
  cases s with
  | nil => rfl
  | cons c r =>
      rw [parseVal, if_neg (fun hc => h (by rw [hc]; rfl))]

theorem parseVal_of_not_mem {s : Str} (h : '\"' ∉ s) : parseVal s = some s := by
  apply parseVal_not_quote
  cases s with
  | nil => simp
  | cons c r =>
      intro hc
      have hc2 : c = '\"' := Option.some.inj hc
      exact h (by rw [hc2]; exact List.mem_cons_self _ _)

theorem parseVal_natToStr (n : Nat) : parseVal (natToStr n) = some (natToStr n) :=
  parseVal_of_not_mem (not_mem_of_all_digits (natToStr_all_digits n) (by decide))

theorem parseVal_renderDate (d : Date) : parseVal (renderDate d) = some (renderDate d) := by
  apply parseVal_of_not_mem
  intro hm
  rcases mem_renderDate hm with hm | hm
  · revert hm; decide
  · exact absurd hm (by decide)

theorem parseVal_renderTS (t : Timestamp) : parseVal (renderTS t) = some (renderTS t) := by
  apply parseVal_of_not_mem
  unfold renderTS
  intro hm
  rcases List.mem_append.mp hm with hm | hm
  · rcases mem_renderDate hm with hm | hm
    · revert hm; decide
    · exact absurd hm (by decide)
  · rcases List.mem_cons.mp hm with hm | hm
    · exact absurd hm (by decide)
    · rcases List.mem_append.mp hm with hm | hm
      · rcases mem_timePart hm with hm | hm | hm
        · revert hm; decide
        · exact absurd hm (by decide)
        · exact absurd hm (by decide)
      · exact absurd (List.mem_singleton.mp hm) (by decide)

theorem parseVal_statusStr (x : TaskStatus) : parseVal (statusStr x) = some (statusStr x) := by
  cases x <;> decide

theorem parseVal_priorityStr (x : Priority) : parseVal (priorityStr x) = some (priorityStr x) := by
  cases x <;> decide

theorem parseVal_kindStr (x : TaskKind) : parseVal (kindStr x) = some (kindStr x) := by
  cases x <;> decide

theorem applyKV_id {n : Nat} (hn : n < 2 ^ 64) (acc : PartialTask) :
    applyKV "id".toList (natToStr n) acc = some { acc with id := some n } := by
  unfold applyKV
  rw [parseVal_natToStr]
  show (parseYamlU64 (natToStr n)).map (fun m => ({ acc with id := some m } : PartialTask))
      = some ({ acc with id := some n } : PartialTask)
  unfold parseYamlU64
  rw [parseDigits_natToStr]
  show (if n < 2 ^ 64 then some n else none).map
        (fun m => ({ acc with id := some m } : PartialTask))
      = some ({ acc with id := some n } : PartialTask)
  rw [if_pos hn]
  rfl

theorem applyKV_title (v : Str) (acc : PartialTask) :
    applyKV "title".toList (renderVal v) acc = some { acc with title := some v } := by
  unfold applyKV
  rw [parseVal_renderVal]
  rfl

theorem applyKV_status (x : TaskStatus) (acc : PartialTask) :
    applyKV "status".toList (statusStr x) acc = some { acc with status := some x } := by
  unfold applyKV
  rw [parseVal_statusStr]
  show (statusOfStr (statusStr x)).map (fun y => ({ acc with status := some y } : PartialTask))
      = some ({ acc with status := some x } : PartialTask)
  rw [statusOfStr_statusStr]
  rfl

theorem applyKV_priority (x : Priority) (acc : PartialTask) :
    applyKV "priority".toList (priorityStr x) acc
      = some { acc with priority := some x } := by
  unfold applyKV
  rw [parseVal_priorityStr]
  show (priorityOfStr (priorityStr x)).map
        (fun y => ({ acc with priority := some y } : PartialTask))
      = some ({ acc with priority := some x } : PartialTask)
  rw [priorityOfStr_priorityStr]
  rfl

theorem applyKV_kind (x : TaskKind) (acc : PartialTask) :
    applyKV "kind".toList (kindStr x) acc = some { acc with kind := some x } := by
  unfold applyKV
  rw [parseVal_kindStr]
  show (kindOfStr (kindStr x)).map (fun y => ({ acc with kind := some y } : PartialTask))
      = some ({ acc with kind := some x } : PartialTask)
  rw [kindOfStr_kindStr]
  rfl

theorem applyKV_due (d : Date) (acc : PartialTask) :
    applyKV "due".toList (renderDate d) acc = some { acc with due := some d } := by
  unfold applyKV
  rw [parseVal_renderDate]
  show (parseDate (renderDate d)).map (fun y => ({ acc with due := some y } : PartialTask))
      = some ({ acc with due := some d } : PartialTask)
  rw [parseDate_renderDate]
  rfl

theorem applyKV_created {ts : Timestamp} (hts : ts.nanos < 10 ^ 9) (acc : PartialTask) :
    applyKV "created".toList (renderTS ts) acc = some { acc with created := some ts } := by
  unfold applyKV
  rw [parseVal_renderTS]
  show (parseTS (renderTS ts)).map (fun y => ({ acc with created := some y } : PartialTask))
      = some ({ acc with created := some ts } : PartialTask)
  rw [parseTS_renderTS hts]
  rfl

theorem applyKV_updated {ts : Timestamp} (hts : ts.nanos < 10 ^ 9) (acc : PartialTask) :
    applyKV "updated".toList (renderTS ts) acc = some { acc with updated := some ts } := by
  unfold applyKV
  rw [parseVal_renderTS]
  show (parseTS (renderTS ts)).map (fun y => ({ acc with updated := some y } : PartialTask))
      = some ({ acc with updated := some ts } : PartialTask)
  rw [parseTS_renderTS hts]
  rfl

theorem applyKV_closed (v : Str) (acc : PartialTask) :
    applyKV "closed_commit".toList (renderVal v) acc
      = some { acc with closed_commit := some v } := by
  unfold applyKV
  rw [parseVal_renderVal]
  rfl

theorem parseLines_scalar {k v : Str} {acc acc' : PartialTask} (rest : List Str)
    (hk : ':' ∉ k) (hkt : k ≠ "tags".toList)
    (happ : applyKV k v acc = some acc') :
    parseLines (renderKV k v :: rest) acc = parseLines rest acc' := by
  have hne : renderKV k v ≠ [] := by simp [renderKV]
  rw [parseLines, if_neg hne, splitKV_renderKV hk v]
  show (if k = "tags".toList then _ else _) = _
  rw [if_neg hkt, happ]

theorem dropWhile_eq_self_of_takeWhile_nil {p : Str → Bool} {b : List Str}
    (hb : b.takeWhile p = []) : b.dropWhile p = b := by
  cases b with
  | nil => rfl
  | cons x bs =>
      rw [List.takeWhile_cons] at hb
      by_cases hx : p x = true
      · rw [if_pos hx] at hb
        exact absurd hb (by simp)
      · rw [List.dropWhile_cons, if_neg hx]

theorem takeWhile_append_run {p : Str → Bool} {a : List Str} (b : List Str)
    (ha : ∀ x ∈ a, p x = true) (hb : b.takeWhile p = []) :
    (a ++ b).takeWhile p = a ∧ (a ++ b).dropWhile p = b := by
  induction a with
  | nil =>
      refine ⟨by simpa using hb, ?_⟩
      simpa using dropWhile_eq_self_of_takeWhile_nil hb
  | cons x a ih =>
      obtain ⟨ht, hd⟩ := ih (fun y hy => ha y (by simp [hy]))
      constructor
      · rw [List.cons_append, List.takeWhile_cons, if_pos (ha x (by simp)), ht]
      · rw [List.cons_append, List.dropWhile_cons, if_pos (ha x (by simp)), hd]

theorem parseItems_map (tags : List Str) :
    parseItems (tags.map (fun tg => '-' :: ' ' :: renderVal tg)) = some tags := by
  induction tags with
  | nil => rfl
  | cons tg tags ih =>
      unfold parseItems at ih ⊢
      rw [List.map_cons, List.mapM_cons,
        show (('-' :: ' ' :: renderVal tg).drop 2) = renderVal tg from rfl,
        parseVal_renderVal, ih]
      rfl

theorem parseLines_tags (tags : List Str) (rest : List Str) (acc : PartialTask)
    (hrest : rest.takeWhile isItemLine = []) :
    parseLines ((("tags".toList ++ [':'])
        :: tags.map (fun tg => '-' :: ' ' :: renderVal tg)) ++ rest) acc
      = parseLines rest { acc with tags := some tags } := by
  have hall : ∀ x ∈ tags.map (fun tg => '-' :: ' ' :: renderVal tg),
      isItemLine x = true := by
    intro x hx
    obtain ⟨tg, _, rfl⟩ := List.mem_map.mp hx
    rfl
  obtain ⟨htake, hdrop⟩ := takeWhile_append_run rest hall hrest
  rw [List.cons_append, parseLines, if_neg (by decide), splitKV_colon (by decide)]
  show (if "tags".toList = "tags".toList then _ else _) = _
  rw [if_pos rfl]
  show (if ([] : Str) = [] then _ else _) = _
  rw [if_pos rfl]
  rw [htake, parseItems_map, hdrop]

theorem isItemLine_renderKV {k v : Str} {a b : Char} {k' : Str} (hk : k = a :: b :: k')
    (hab : ¬(a = '-' ∧ b = ' ')) : isItemLine (renderKV k v) = false := by
  subst hk
  show decide ([a, b] = ['-', ' ']) = false
  rw [decide_eq_false_iff_not]
  intro h
  apply hab
  have h1 := List.cons.inj h
  have h2 := List.cons.inj h1.2
  exact ⟨h1.1, h2.1⟩

theorem takeWhile_kv_nil {k v : Str} {a b : Char} {k' : Str} (hk : k = a :: b :: k')
    (hab : ¬(a = '-' ∧ b = ' ')) (rs : List Str) :
    (renderKV k v :: rs).takeWhile isItemLine = [] := by
  rw [List.takeWhile_cons, if_neg (by rw [isItemLine_renderKV hk hab]; simp)]

theorem parseLines_nil (acc : PartialTask) : parseLines [] acc = some acc := by
  rw [parseLines]

theorem parseLines_cuc (t : Task) (hcr : t.created.nanos < 10 ^ 9)
    (hup : t.updated.nanos < 10 ^ 9) (acc : PartialTask) :
    parseLines (renderKV "created".toList (renderTS t.created)
      :: renderKV "updated".toList (renderTS t.updated)
      :: (match t.closed_commit with
          | none => []
          | some c => [renderKV "closed_commit".toList (renderVal c)])) acc
    = some { acc with
        created := some t.created, updated := some t.updated,
        closed_commit := (match t.closed_commit with
          | none => acc.closed_commit
          | some c => some c) } := by
  rw [parseLines_scalar _ (by decide) (by decide) (applyKV_created hcr acc),
    parseLines_scalar _ (by decide) (by decide) (applyKV_updated hup _)]
  cases hcc : t.closed_commit with
  | none => rw [parseLines_nil]
  | some c =>
      rw [parseLines_scalar _ (by decide) (by decide) (applyKV_closed c _),
        parseLines_nil]

theorem parseLines_renderFM (t : Task) (hid : t.id < 2 ^ 64)
    (hcr : t.created.nanos < 10 ^ 9) (hup : t.updated.nanos < 10 ^ 9) :
    parseLines (renderFM t) {}
      = some { id := some t.id, title := some t.title, status := some t.status,
               priority := some t.priority, kind := some t.kind,
               tags := if t.tags = [] then none else some t.tags,
               due := t.due, created := some t.created, updated := some t.updated,
               closed_commit := t.closed_commit } := by
  unfold renderFM
  rw [parseLines_scalar _ (by decide) (by decide)
      (show applyKV "id".toList (natToStr t.id) {} = some { id := some t.id }
        from applyKV_id hid _),
    parseLines_scalar _ (by decide) (by decide)
      (show applyKV "title".toList (renderVal t.title) { id := some t.id }
          = some { id := some t.id, title := some t.title }
        from applyKV_title _ _),
    parseLines_scalar _ (by decide) (by decide)
      (show applyKV "status".toList (statusStr t.status)
            { id := some t.id, title := some t.title }
          = some { id := some t.id, title := some t.title, status := some t.status }
        from applyKV_status _ _),
    parseLines_scalar _ (by decide) (by decide)
      (show applyKV "priority".toList (priorityStr t.priority)
            { id := some t.id, title := some t.title, status := some t.status }
          = some { id := some t.id, title := some t.title, status := some t.status,
                   priority := some t.priority }
        from applyKV_priority _ _),
    parseLines_scalar _ (by decide) (by decide)
      (show applyKV "kind".toList (kindStr t.kind)
            { id := some t.id, title := some t.title, status := some t.status,
              priority := some t.priority }
          = some { id := some t.id, title := some t.title, status := some t.status,
                   priority := some t.priority, kind := some t.kind }
        from applyKV_kind _ _)]
  by_cases htags : t.tags = []
  · rw [if_pos htags, List.nil_append]
    cases hdue : t.due with
    | none =>
        rw [List.nil_append, parseLines_cuc t hcr hup _, if_pos htags]
        cases hcc : t.closed_commit <;> rfl
    | some d =>
        rw [List.singleton_append,
          parseLines_scalar _ (by decide) (by decide)
            (show applyKV "due".toList (renderDate d)
                  { id := some t.id, title := some t.title, status := some t.status,
                    priority := some t.priority, kind := some t.kind }
                = some { id := some t.id, title := some t.title, status := some t.status,
                         priority := some t.priority, kind := some t.kind, due := some d }
              from applyKV_due d _),
          parseLines_cuc t hcr hup _, if_pos htags]
        cases hcc : t.closed_commit <;> rfl
  · rw [if_neg htags]
    cases hdue : t.due with
    | none =>
        rw [parseLines_tags _ _ _ (by
            rw [List.nil_append]
            exact takeWhile_kv_nil rfl (by decide) _)]
        change parseLines _
          ({ id := some t.id, title := some t.title, status := some t.status,
             priority := some t.priority, kind := some t.kind,
             tags := some t.tags } : PartialTask) = _
        rw [List.nil_append, parseLines_cuc t hcr hup _, if_neg htags]
        cases hcc : t.closed_commit <;> rfl
    | some d =>
        rw [parseLines_tags _ _ _ (by
            rw [List.singleton_append]
            exact takeWhile_kv_nil rfl (by decide) _)]
        change parseLines _
          ({ id := some t.id, title := some t.title, status := some t.status,
             priority := some t.priority, kind := some t.kind,
             tags := some t.tags } : PartialTask) = _
        rw [List.singleton_append,
          parseLines_scalar _ (by decide) (by decide)
            (show applyKV "due".toList (renderDate d)
                  { id := some t.id, title := some t.title, status := some t.status,
                    priority := some t.priority, kind := some t.kind,
                    tags := some t.tags }
                = some { id := some t.id, title := some t.title, status := some t.status,
                         priority := some t.priority, kind := some t.kind,
                         tags := some t.tags, due := some d }
              from applyKV_due d _),
          parseLines_cuc t hcr hup _, if_neg htags]
        cases hcc : t.closed_commit <;> rfl

theorem finalize_fields (t : Task) :
    finalize { id := some t.id, title := some t.title, status := some t.status,
               priority := some t.priority, kind := some t.kind,
               tags := if t.tags = [] then none else some t.tags,
               due := t.due, created := some t.created, updated := some t.updated,
               closed_commit := t.closed_commit }
      = some { t with description := [] } := by
  by_cases htags : t.tags = []
  · rw [if_pos htags]
    unfold finalize
    rw [htags]
    rfl
  · rw [if_neg htags]
    unfold finalize
    rfl

theorem parseFrontmatter_renderFM (t : Task) (hid : t.id < 2 ^ 64)
    (hcr : t.created.nanos < 10 ^ 9) (hup : t.updated.nanos < 10 ^ 9) :
    parseFrontmatter (interSep '\n' (renderFM t)) = some { t with description := [] } := by
  unfold parseFrontmatter
  rw [splitOnChar_interSep (by unfold renderFM; simp)
      (fun l hl => (renderFM_lines_ok t l hl).1)]
  rw [parseLines_renderFM t hid hcr hup]
  exact finalize_fields t

theorem parseTask_serializeTask {t : Task} (hid : t.id < 2 ^ 64)
    (hcr : t.created.nanos < 10 ^ 9) (hup : t.updated.nanos < 10 ^ 9)
    (hdr : trimRight t.description = t.description) :
    parseTask (serializeTask t) = some { t with description := trim t.description } := by
  unfold parseTask
  rw [splitFrontmatter_serializeTask t hdr]
  change (match parseFrontmatter (interSep '\n' (renderFM t)) with | none => none | some u => some { u with description := trim (if t.description = [] then [] else '\n' :: '\n' :: t.description) }) = some { t with description := trim t.description }
  rw [parseFrontmatter_renderFM t hid hcr hup]
  change some ({ t with description := trim (if t.description = [] then [] else '\n' :: '\n' :: t.description) } : Task) = some { t with description := trim t.description }
  by_cases hde : t.description = []
  · rw [if_pos hde, hde]
  · rw [if_neg hde, trim_nl_nl]

/-- C1 counterexample: the claim `deserialize(serialize(r)) == r` fails as
stated.  For the concrete record `cexC1`, whose title is non-empty but
whose description starts with a space, deserialization returns the record
with the description trimmed, not the original record. -/
theorem claim_C1_counterexample :
    parseTask (serializeTask cexC1) = some { cexC1 with description := "x".toList }
      ∧ parseTask (serializeTask cexC1) ≠ some cexC1 := by
  have h := parseTask_serializeTask
    (show cexC1.id < 2 ^ 64 by decide) (show cexC1.created.nanos < 10 ^ 9 by decide)
    (show cexC1.updated.nanos < 10 ^ 9 by decide)
    (show trimRight cexC1.description = cexC1.description by decide)
  rw [h]
  constructor
  · decide
  · decide

/-- C1 (amended): for every record whose title is non-empty, whose `u64`
identifier and timestamp fields are in range, and whose description has no
leading or trailing whitespace, `deserialize(serialize(r)) == r`: every
field is reproduced exactly, including the empty-versus-absent
distinctions for tags, due date and closed-commit.  The amendment restricts
the description, because `parse_task` trims the body: descriptions with
edge whitespace come back trimmed. -/
theorem claim_C1_roundtrip (t : Task) (htitle : t.title ≠ [])
    (hid : t.id < 2 ^ 64) (hcr : t.created.nanos < 10 ^ 9)
    (hup : t.updated.nanos < 10 ^ 9) (hd : trim t.description = t.description) :
    parseTask (serializeTask t) = some t := by
  have h := parseTask_serializeTask hid hcr hup (trim_eq_self_parts hd).2
  rw [hd] at h
  exact h

/-- C1 witness: the amended round-trip theorem applied to the concrete,
fully populated record `wTaskC1`. -/
theorem claim_C1_witness :
    wTaskC1.title ≠ [] ∧ wTaskC1.id < 2 ^ 64 ∧ wTaskC1.created.nanos < 10 ^ 9
      ∧ wTaskC1.updated.nanos < 10 ^ 9
      ∧ trim wTaskC1.description = wTaskC1.description
      ∧ parseTask (serializeTask wTaskC1) = some wTaskC1 :=
  ⟨by decide, by decide, by decide, by decide, by decide,
    claim_C1_roundtrip wTaskC1 (by decide) (by decide) (by decide) (by decide) (by decide)⟩

/-! ### Character arithmetic for the slug -/

theorem toNat_ofNat_small {n : Nat} (h : n < 55296) : (Char.ofNat n).toNat = n := by
  have hv : n.isValidChar := Or.inl h
  simp [Char.ofNat, hv, Char.ofNatAux, Char.toNat, UInt32.toNat, UInt32.ofNatCore,
    BitVec.toNat_ofNatLt]

theorem isLowerAZ_iff {c : Char} : isLowerAZ c = true ↔ 97 ≤ c.toNat ∧ c.toNat ≤ 122 := by
  unfold isLowerAZ
  rw [Bool.and_eq_true, decide_eq_true_iff, decide_eq_true_iff]
  exact Iff.rfl

theorem isUpperAZ_iff {c : Char} : isUpperAZ c = true ↔ 65 ≤ c.toNat ∧ c.toNat ≤ 90 := by
  unfold isUpperAZ
  rw [Bool.and_eq_true, decide_eq_true_iff, decide_eq_true_iff]
  exact Iff.rfl

theorem isDigitCh_iff {c : Char} : isDigitCh c = true ↔ 48 ≤ c.toNat ∧ c.toNat ≤ 57 := by
  unfold isDigitCh
  rw [Bool.and_eq_true, decide_eq_true_iff, decide_eq_true_iff]
  exact Iff.rfl

theorem toLowerCh_lower {c : Char} (h : isUpperAZ c = true) :
    isLowerAZ (toLowerCh c) = true := by
  obtain ⟨h1, h2⟩ := isUpperAZ_iff.mp h
  rw [toLowerCh, if_pos h, isLowerAZ_iff, toNat_ofNat_small (by omega)]
  omega

theorem toLowerCh_ne_dash {c : Char} (h : isUpperAZ c = true) : toLowerCh c ≠ '-' := by
  intro he
  have hc := congrArg Char.toNat he
  have h45 : ('-').toNat = 45 := rfl
  obtain ⟨h1, h2⟩ := isUpperAZ_iff.mp h
  rw [toLowerCh, if_pos h, toNat_ofNat_small (by omega), h45] at hc
  omega

theorem lower_ne_dash {c : Char} (h : isLowerAZ c = true) : c ≠ '-' := by
  intro he; subst he; simp [isLowerAZ] at h

theorem digit_ne_dash {c : Char} (h : isDigitCh c = true) : c ≠ '-' := by
  intro he; subst he; simp [isDigitCh] at h

theorem toLowerCh_not_upper {c : Char} (h : isUpperAZ c = false) : toLowerCh c = c := by
  rw [toLowerCh, if_neg]
  simp [h]

theorem not_upper_of_lower_digit {c : Char} (h : (isLowerAZ c || isDigitCh c) = true) :
    isUpperAZ c = false := by
  rcases Bool.or_eq_true _ _ |>.mp h with hl | hd
  · obtain ⟨h1, h2⟩ := isLowerAZ_iff.mp hl
    rcases hu : isUpperAZ c with _ | _
    · rfl
    · obtain ⟨h3, h4⟩ := isUpperAZ_iff.mp hu; omega
  · obtain ⟨h1, h2⟩ := isDigitCh_iff.mp hd
    rcases hu : isUpperAZ c with _ | _
    · rfl
    · obtain ⟨h3, h4⟩ := isUpperAZ_iff.mp hu; omega

theorem emitted_ne_dash {c : Char} (h : (isLowerAZ c || isDigitCh c) = true) : c ≠ '-' := by
  rcases Bool.or_eq_true _ _ |>.mp h with hl | hd
  · exact lower_ne_dash hl
  · exact digit_ne_dash hd

/-! ### Shape of the slug -/

theorem slugifyAux_chars {s : Str} :
    ∀ pd c, c ∈ slugifyAux pd s → c = '-' ∨ (isLowerAZ c || isDigitCh c) = true := by
  induction s with
  | nil => intro pd c h; simp [slugifyAux] at h
  | cons x r ih =>
    intro pd c h
    rw [slugifyAux] at h
    by_cases h1 : (isLowerAZ x || isDigitCh x) = true
    · rw [if_pos h1] at h
      rcases List.mem_cons.mp h with rfl | hm
      · exact Or.inr h1
      · exact ih false c hm
    · rw [if_neg h1] at h
      by_cases h2 : isUpperAZ x = true
      · rw [if_pos h2] at h
        rcases List.mem_cons.mp h with rfl | hm
        · exact Or.inr (by rw [toLowerCh_lower h2, Bool.true_or])
        · exact ih false c hm
      · rw [if_neg h2] at h
        by_cases h3 : pd = true
        · rw [if_pos h3] at h
          exact ih true c h
        · rw [if_neg h3] at h
          rcases List.mem_cons.mp h with rfl | hm
          · exact Or.inl rfl
          · exact ih true c hm

theorem slugifyAux_head {s : Str} : (slugifyAux true s).head? ≠ some '-' := by
  induction s with
  | nil => simp [slugifyAux]
  | cons x r ih =>
    rw [slugifyAux]
    by_cases h1 : (isLowerAZ x || isDigitCh x) = true
    · rw [if_pos h1]
      simp only [List.head?_cons]
      exact fun hc => emitted_ne_dash h1 (Option.some.inj hc)
    · rw [if_neg h1]
      by_cases h2 : isUpperAZ x = true
      · rw [if_pos h2]
        simp only [List.head?_cons]
        exact fun hc => toLowerCh_ne_dash h2 (Option.some.inj hc)
      · rw [if_neg h2, if_pos rfl]
        exact ih

theorem dropTrailingDash_cons {c : Char} {B : Str} (h : B ≠ []) :
    dropTrailingDash (c :: B) = c :: dropTrailingDash B := by
  obtain ⟨b, B', rfl⟩ := List.exists_cons_of_ne_nil h
  rw [dropTrailingDash, dropTrailingDash, List.getLast?_cons_cons]
  by_cases hl : (b :: B').getLast? = some '-'
  · rw [if_pos hl, if_pos hl, List.dropLast_cons₂]
  · rw [if_neg hl, if_neg hl]

theorem dropTrailingDash_ne_nil {B : Str} (hne : B ≠ []) (hh : B.head? ≠ some '-') :
    dropTrailingDash B ≠ [] := by
  match B, hne with
  | [y], _ =>
    have hy : y ≠ '-' := by simpa using hh
    rw [dropTrailingDash]
    simp [hy]
  | y :: z :: l, _ =>
    rw [dropTrailingDash]
    by_cases hl : (y :: z :: l).getLast? = some '-'
    · rw [if_pos hl, List.dropLast_cons₂]
      simp
    · rw [if_neg hl]
      simp

theorem slug_getLast_aux {s : Str} :
    ∀ pd, (dropTrailingDash (slugifyAux pd s)).getLast? ≠ some '-' := by
  induction s with
  | nil => intro pd; simp [slugifyAux, dropTrailingDash]
  | cons x r ih =>
    intro pd
    rw [slugifyAux]
    by_cases h1 : (isLowerAZ x || isDigitCh x) = true
    · rw [if_pos h1]
      cases hB : slugifyAux false r with
      | nil =>
        simp [dropTrailingDash, emitted_ne_dash h1]
      | cons b B' =>
        rw [dropTrailingDash_cons (List.cons_ne_nil b B')]
        have ihr := ih false
        rw [hB] at ihr
        cases hD : dropTrailingDash (b :: B') with
        | nil => simp [emitted_ne_dash h1]
        | cons d D' =>
          rw [List.getLast?_cons_cons]
          rw [hD] at ihr
          exact ihr
    · rw [if_neg h1]
      by_cases h2 : isUpperAZ x = true
      · rw [if_pos h2]
        cases hB : slugifyAux false r with
        | nil =>
          simp [dropTrailingDash, toLowerCh_ne_dash h2]
        | cons b B' =>
          rw [dropTrailingDash_cons (List.cons_ne_nil b B')]
          have ihr := ih false
          rw [hB] at ihr
          cases hD : dropTrailingDash (b :: B') with
          | nil => simp [toLowerCh_ne_dash h2]
          | cons d D' =>
            rw [List.getLast?_cons_cons]
            rw [hD] at ihr
            exact ihr
      · rw [if_neg h2]
        by_cases h3 : pd = true
        · rw [if_pos h3]
          exact ih true
        · rw [if_neg h3]
          cases hB : slugifyAux true r with
          | nil =>
            simp [dropTrailingDash]
          | cons b B' =>
            have hh : (b :: B').head? ≠ some '-' := hB ▸ slugifyAux_head
            have hDne := dropTrailingDash_ne_nil (List.cons_ne_nil b B') hh
            rw [dropTrailingDash_cons (List.cons_ne_nil b B')]
            have ihr := ih true
            rw [hB] at ihr
            cases hD : dropTrailingDash (b :: B') with
            | nil => exact absurd hD hDne
            | cons d D' =>
              rw [List.getLast?_cons_cons]
              rw [hD] at ihr
              exact ihr

theorem slugifyAux_chain {s : Str} :
    ∀ pd, List.Chain' (fun a b => ¬(a = '-' ∧ b = '-')) (slugifyAux pd s) := by
  induction s with
  | nil => intro pd; simp [slugifyAux]
  | cons x r ih =>
    intro pd
    rw [slugifyAux]
    by_cases h1 : (isLowerAZ x || isDigitCh x) = true
    · rw [if_pos h1]
      exact List.chain'_cons'.mpr
        ⟨fun y _ hc => emitted_ne_dash h1 hc.1, ih false⟩
    · rw [if_neg h1]
      by_cases h2 : isUpperAZ x = true
      · rw [if_pos h2]
        exact List.chain'_cons'.mpr
          ⟨fun y _ hc => toLowerCh_ne_dash h2 hc.1, ih false⟩
      · rw [if_neg h2]
        by_cases h3 : pd = true
        · rw [if_pos h3]
          exact ih true
        · rw [if_neg h3]
          refine List.chain'_cons'.mpr ⟨fun y hy hc => ?_, ih true⟩
          exact slugifyAux_head (hc.2 ▸ hy)

theorem slug_chain (s : Str) :
    List.Chain' (fun a b => ¬(a = '-' ∧ b = '-')) (slugify s) :=
  List.Chain'.prefix (slugifyAux_chain true) (by
    rw [slugify, dropTrailingDash]
    by_cases hl : (slugifyAux true s).getLast? = some '-'
    · rw [if_pos hl]; exact List.dropLast_prefix _
    · rw [if_neg hl])

theorem slug_head (s : Str) : (slugify s).head? ≠ some '-' := by
  rw [slugify, dropTrailingDash]
  by_cases hl : (slugifyAux true s).getLast? = some '-'
  · rw [if_pos hl]
    cases hA : slugifyAux true s with
    | nil => simp
    | cons a A' =>
      have hh : (a :: A').head? ≠ some '-' := hA ▸ slugifyAux_head
      have ha : a ≠ '-' := fun hc => hh (by simp [hc])
      cases A' with
      | nil =>
        rw [hA] at hl
        simp at hl
        exact absurd hl ha
      | cons b A'' =>
        rw [List.dropLast_cons₂, List.head?_cons]
        exact fun hc => ha (Option.some.inj hc)
  · rw [if_neg hl]
    exact slugifyAux_head

theorem slug_getLast (s : Str) : (slugify s).getLast? ≠ some '-' :=
  slug_getLast_aux true

theorem slug_chars (s : Str) :
    ∀ c ∈ slugify s, c = '-' ∨ (isLowerAZ c || isDigitCh c) = true := by
  intro c hc
  refine @slugifyAux_chars s true c ?_
  have : slugify s <+: slugifyAux true s := by
    rw [slugify, dropTrailingDash]
    by_cases hl : (slugifyAux true s).getLast? = some '-'
    · rw [if_pos hl]; exact List.dropLast_prefix _
    · rw [if_neg hl]
  exact this.subset hc

theorem slugifyAux_filter {s : Str} :
    ∀ pd, (slugifyAux pd s).filter (fun c => decide (c ≠ '-'))
      = (s.filter isAlnumA).map toLowerCh := by
  induction s with
  | nil => intro pd; simp [slugifyAux]
  | cons x r ih =>
    intro pd
    rw [slugifyAux]
    by_cases h1 : (isLowerAZ x || isDigitCh x) = true
    · rw [if_pos h1]
      have halnum : isAlnumA x = true := by
        rw [isAlnumA]
        rcases Bool.or_eq_true _ _ |>.mp h1 with hl | hd
        · rw [hl]; rfl
        · rw [hd]; simp
      rw [List.filter_cons_of_pos (by simpa using emitted_ne_dash h1),
        List.filter_cons_of_pos halnum, List.map_cons,
        toLowerCh_not_upper (not_upper_of_lower_digit h1)]
      rw [ih false]
    · rw [if_neg h1]
      by_cases h2 : isUpperAZ x = true
      · rw [if_pos h2]
        have halnum : isAlnumA x = true := by
          rw [isAlnumA, h2]
          simp
        rw [List.filter_cons_of_pos (by simpa using toLowerCh_ne_dash h2),
          List.filter_cons_of_pos halnum, List.map_cons]
        rw [ih false]
      · rw [if_neg h2]
        have halnum : isAlnumA x = false := by
          rw [isAlnumA]
          rcases ho : isLowerAZ x with _ | _
          · rcases hd : isDigitCh x with _ | _
            · rcases hu : isUpperAZ x with _ | _
              · rfl
              · exact absurd hu h2
            · exact absurd (by rw [ho, hd]; rfl) h1
          · exact absurd (by rw [ho]; rfl) h1
        rw [List.filter_cons_of_neg (by simp [halnum])]
        by_cases h3 : pd = true
        · rw [if_pos h3]
          exact ih true
        · rw [if_neg h3]
          rw [List.filter_cons_of_neg (by simp)]
          exact ih true

theorem filter_dropTrailingDash (A : Str) :
    (dropTrailingDash A).filter (fun c => decide (c ≠ '-'))
      = A.filter (fun c => decide (c ≠ '-')) := by
  rw [dropTrailingDash]
  by_cases hl : A.getLast? = some '-'
  · rw [if_pos hl]
    have hne : A ≠ [] := by
      intro h
      rw [h] at hl
      simp at hl
    have hlast : A.getLast hne = '-' := by
      have := List.getLast?_eq_getLast A hne
      rw [hl] at this
      exact (Option.some.inj this).symm
    conv_rhs => rw [← List.dropLast_append_getLast hne]
    rw [List.filter_append, hlast]
    simp
  · rw [if_neg hl]

theorem slug_filter (s : Str) :
    (slugify s).filter (fun c => decide (c ≠ '-')) = (s.filter isAlnumA).map toLowerCh := by
  rw [slugify, filter_dropTrailingDash, slugifyAux_filter]

theorem natToStr_length_ge {n : Nat} (h : 1000 ≤ n) : 3 ≤ (natToStr n).length := by
  rw [natToStr_eq_digits, if_neg (by omega)]
  simp only [List.length_reverse, List.length_map]
  rw [Nat.digits_len 10 n (by norm_num) (by omega)]
  have h3 : 3 ≤ Nat.log 10 n := by
    calc 3 = Nat.log 10 (10 ^ 3) := (Nat.log_pow (by norm_num) 3).symm
    _ ≤ Nat.log 10 n := Nat.log_mono_right (by omega)
  omega

theorem padZeros_of_wide {n : Nat} (h : 1000 ≤ n) : padZeros 3 n = natToStr n := by
  rw [padZeros, Nat.sub_eq_zero_of_le (natToStr_length_ge h)]
  rfl

/-- C5: the encoded filename is `{slug}-{paddedId}.md`, where the slug of
an ASCII title consists of lowercase letters, digits and single interior
hyphens (no leading, trailing or doubled hyphen) and its non-hyphen
content is exactly the lowercased alphanumeric content of the title, and
the identifier is zero-padded to width 3 when it fits and is rendered at
natural width otherwise. -/
theorem claim_C5_filename (t : Task) (hascii : ∀ c ∈ t.title, c.toNat < 128) :
    Task.filename t = slugify t.title ++ '-' :: (padZeros 3 t.id ++ ".md".toList)
    ∧ (∀ c ∈ slugify t.title, c = '-' ∨ (isLowerAZ c || isDigitCh c) = true)
    ∧ (slugify t.title).head? ≠ some '-'
    ∧ (slugify t.title).getLast? ≠ some '-'
    ∧ List.Chain' (fun a b => ¬(a = '-' ∧ b = '-')) (slugify t.title)
    ∧ (slugify t.title).filter (fun c => decide (c ≠ '-'))
        = (t.title.filter isAlnumA).map toLowerCh
    ∧ (t.id < 1000 → (padZeros 3 t.id).length = 3)
    ∧ (1000 ≤ t.id → padZeros 3 t.id = natToStr t.id)
    ∧ parseDigits (padZeros 3 t.id) = some t.id := by
  refine ⟨rfl, slug_chars t.title, slug_head t.title, slug_getLast t.title,
    slug_chain t.title, slug_filter t.title, fun hlt => ?_, padZeros_of_wide,
    parseDigits_padZeros 3 t.id⟩
  exact padZeros_length (natToStr_length_le (by norm_num) (by omega))

/-- C5 witness: the filename law at the concrete task `wTaskC5`. -/
theorem claim_C5_witness :
    (∀ c ∈ wTaskC5.title, c.toNat < 128)
    ∧ (Task.filename wTaskC5 = slugify wTaskC5.title
          ++ '-' :: (padZeros 3 wTaskC5.id ++ ".md".toList)
      ∧ (∀ c ∈ slugify wTaskC5.title, c = '-' ∨ (isLowerAZ c || isDigitCh c) = true)
      ∧ (slugify wTaskC5.title).head? ≠ some '-'
      ∧ (slugify wTaskC5.title).getLast? ≠ some '-'
      ∧ List.Chain' (fun a b => ¬(a = '-' ∧ b = '-')) (slugify wTaskC5.title)
      ∧ (slugify wTaskC5.title).filter (fun c => decide (c ≠ '-'))
          = (wTaskC5.title.filter isAlnumA).map toLowerCh
      ∧ (wTaskC5.id < 1000 → (padZeros 3 wTaskC5.id).length = 3)
      ∧ (1000 ≤ wTaskC5.id → padZeros 3 wTaskC5.id = natToStr wTaskC5.id)
      ∧ parseDigits (padZeros 3 wTaskC5.id) = some wTaskC5.id) :=
  ⟨by decide, claim_C5_filename wTaskC5 (by decide)⟩

/-- C4: `extract_id_from_filename` returns `some n` exactly when the file
stem splits at its last hyphen as `pre ++ "-" ++ suf` with a hyphen-free
suffix that parses as an unsigned 64-bit decimal integer `n`, and `none`
exactly when the name has no stem, the stem contains no hyphen, or the
suffix after the last hyphen does not parse. -/
theorem claim_C4_extract (f : Str) :
    (∀ n, extractId f = some n ↔
      ∃ stem pre suf, fileStem f = some stem ∧ stem = pre ++ '-' :: suf
        ∧ '-' ∉ suf ∧ parseU64 suf = some n)
    ∧ (extractId f = none ↔
      (fileStem f = none
        ∨ (∃ stem, fileStem f = some stem ∧ '-' ∉ stem)
        ∨ (∃ stem pre suf, fileStem f = some stem ∧ stem = pre ++ '-' :: suf
            ∧ '-' ∉ suf ∧ parseU64 suf = none))) := by
  cases hstem : fileStem f with
  | none =>
    have hval : extractId f = none := by
      simp only [extractId.eq_def, hstem]
    refine ⟨fun n => ⟨fun h => absurd (hval.symm.trans h) (by simp), fun h => ?_⟩,
      ⟨fun _ => Or.inl rfl, fun _ => hval⟩⟩
    obtain ⟨stem, pre, suf, hst, _⟩ := h
    exact absurd hst (by simp)
  | some stem =>
    cases hsp : rsplitOnce '-' stem with
    | none =>
      have hnm : '-' ∉ stem := rsplitOnce_eq_none_iff.mp hsp
      have hval : extractId f = none := by
        simp only [extractId.eq_def, hstem, hsp]
      refine ⟨fun n => ⟨fun h => absurd (hval.symm.trans h) (by simp), fun h => ?_⟩,
        ⟨fun _ => Or.inr (Or.inl ⟨stem, rfl, hnm⟩), fun _ => hval⟩⟩
      obtain ⟨stem', pre, suf, hst, hdec, _⟩ := h
      obtain rfl := Option.some.inj hst
      exact absurd (show ('-') ∈ stem by rw [hdec]; simp) hnm
    | some pq =>
      obtain ⟨pre0, suf0⟩ := pq
      obtain ⟨hdec0, hns0⟩ := rsplitOnce_some hsp
      have key : ∀ pre suf, stem = pre ++ '-' :: suf → '-' ∉ suf → suf = suf0 := by
        intro pre suf hd hns
        have h1 : rsplitOnce '-' stem = some (pre, suf) := by
          rw [hd]
          exact rsplitOnce_append pre hns
        rw [hsp] at h1
        simp only [Option.some.injEq, Prod.mk.injEq] at h1
        exact h1.2.symm
      have hval : extractId f = parseU64 suf0 := by
        simp only [extractId.eq_def, hstem, hsp]
      refine ⟨fun n => ⟨fun h => ⟨stem, pre0, suf0, rfl, hdec0, hns0, hval.symm.trans h⟩,
          fun h => ?_⟩,
        ⟨fun h => Or.inr (Or.inr ⟨stem, pre0, suf0, rfl, hdec0, hns0, hval.symm.trans h⟩),
          fun h => ?_⟩⟩
      · obtain ⟨stem', pre, suf, hst, hdec, hns, hp⟩ := h
        obtain rfl := Option.some.inj hst
        rw [hval, ← key pre suf hdec hns]
        exact hp
      · rcases h with hno | ⟨stem', hst, hnmem⟩ | ⟨stem', pre, suf, hst, hdec, hns, hp⟩
        · exact absurd hno (by simp)
        · obtain rfl := Option.some.inj hst
          exact absurd (show ('-') ∈ stem by rw [hdec0]; simp) hnmem
        · obtain rfl := Option.some.inj hst
          rw [hval, ← key pre suf hdec hns]
          exact hp

/-! ### Facts about the generated filename and identifier extraction -/

theorem parseU64_padZeros {w n : Nat} (hn : n < 2 ^ 64) :
    parseU64 (padZeros w n) = some n := by
  have hh : (padZeros w n).head? ≠ some '+' := by
    cases hp : padZeros w n with
    | nil => simp
    | cons c r =>
      simp only [List.head?_cons]
      intro hc
      obtain rfl := Option.some.inj hc
      have hall := padZeros_all_digits w n
      rw [hp, List.all_cons] at hall
      exact absurd (Bool.and_eq_true _ _ |>.mp hall).1 (by decide)
  simp only [parseU64]
  rw [if_neg hh]
  simp only [parseDigits_padZeros]
  rw [if_pos hn]

theorem filename_length (t : Task) : 4 ≤ (Task.filename t).length := by
  have hp : 0 < (padZeros 3 t.id).length := List.length_pos.mpr (padZeros_ne_nil 3 t.id)
  rw [Task.filename]
  simp only [List.length_append, List.length_cons]
  have : (".md".toList : Str).length = 3 := by decide
  omega

theorem filename_not_special (t : Task) :
    ¬(Task.filename t = [] ∨ Task.filename t = ['.'] ∨ Task.filename t = ['.', '.']) := by
  have h4 := filename_length t
  rintro (h | h | h) <;> rw [h] at h4 <;> simp at h4

theorem splitFileAtDot_filename (t : Task) :
    splitFileAtDot (Task.filename t)
      = (slugify t.title ++ '-' :: padZeros 3 t.id, some ['m', 'd']) := by
  have hdec : Task.filename t
      = (slugify t.title ++ '-' :: padZeros 3 t.id) ++ '.' :: ['m', 'd'] := by
    rw [Task.filename]
    simp
  have hne2 : Task.filename t ≠ ['.', '.'] := fun h => (filename_not_special t) (Or.inr (Or.inr h))
  obtain ⟨c, S', hS⟩ := List.exists_cons_of_ne_nil
    (show slugify t.title ++ '-' :: padZeros 3 t.id ≠ [] from by simp)
  have hr : rsplitOnce '.' (S' ++ '.' :: ['m', 'd']) = some (S', ['m', 'd']) :=
    rsplitOnce_append S' (by decide)
  rw [hdec, hS, List.cons_append] at hne2 ⊢
  simp only [splitFileAtDot, if_neg hne2, hr]

theorem fileStem_filename (t : Task) :
    fileStem (Task.filename t) = some (slugify t.title ++ '-' :: padZeros 3 t.id) := by
  rw [fileStem, if_neg (filename_not_special t), splitFileAtDot_filename]

theorem hasMdExt_filename (t : Task) : hasMdExt (Task.filename t) = true := by
  have he : extension (Task.filename t) = some ['m', 'd'] := by
    rw [extension, if_neg (filename_not_special t), splitFileAtDot_filename]
  simp [hasMdExt, he]

theorem extractId_filename {t : Task} (h : t.id < 2 ^ 64) :
    extractId (Task.filename t) = some t.id := by
  have hnp : '-' ∉ padZeros 3 t.id :=
    not_mem_of_all_digits (padZeros_all_digits 3 t.id) (by decide)
  simp only [extractId.eq_def, fileStem_filename,
    rsplitOnce_append (slugify t.title) hnp, parseU64_padZeros h]

/-! ### The `find_max_id` fold -/

theorem le_maxStep (a : Nat) (f : Str) : a ≤ maxStep a f := by
  rw [maxStep]
  by_cases h : hasMdExt f = true
  · rw [if_pos h]
    cases hx : extractId f with
    | none => exact Nat.le_refl a
    | some i => exact Nat.le_max_left a i
  · rw [if_neg h]

theorem le_foldl_maxStep (l : List Str) : ∀ a, a ≤ l.foldl maxStep a := by
  induction l with
  | nil => intro a; exact Nat.le_refl a
  | cons f r ih => intro a; exact Nat.le_trans (le_maxStep a f) (ih (maxStep a f))

theorem foldl_maxStep_ub (l : List Str) :
    ∀ a f, f ∈ l → hasMdExt f = true → ∀ i, extractId f = some i → i ≤ l.foldl maxStep a := by
  induction l with
  | nil => intro a f hf; exact absurd hf (List.not_mem_nil f)
  | cons g r ih =>
    intro a f hf hmd i hi
    rcases List.mem_cons.mp hf with rfl | hm
    · have hst : i ≤ maxStep a f := by
        rw [maxStep, if_pos hmd, hi]
        exact Nat.le_max_right a i
      exact Nat.le_trans hst (le_foldl_maxStep r (maxStep a f))
    · exact ih (maxStep a g) f hm hmd i hi

theorem foldl_maxStep_attained (l : List Str) :
    ∀ a, l.foldl maxStep a = a
      ∨ ∃ f ∈ l, hasMdExt f = true ∧ extractId f = some (l.foldl maxStep a) := by
  induction l with
  | nil => intro a; exact Or.inl rfl
  | cons g r ih =>
    intro a
    rw [List.foldl_cons]
    by_cases hmd : hasMdExt g = true
    · cases hx : extractId g with
      | none =>
        have hstep : maxStep a g = a := by rw [maxStep, if_pos hmd, hx]
        rw [hstep]
        rcases ih a with h | ⟨f, hf, hm, he⟩
        · exact Or.inl h
        · exact Or.inr ⟨f, List.mem_cons_of_mem g hf, hm, he⟩
      | some i =>
        have hstep : maxStep a g = max a i := by rw [maxStep, if_pos hmd, hx]
        rw [hstep]
        rcases ih (max a i) with h | ⟨f, hf, hm, he⟩
        · rw [h]
          rcases Nat.le_total a i with hle | hle
          · rw [Nat.max_eq_right hle]
            exact Or.inr ⟨g, List.mem_cons_self .., hmd, hx⟩
          · rw [Nat.max_eq_left hle]
            exact Or.inl rfl
        · exact Or.inr ⟨f, List.mem_cons_of_mem g hf, hm, he⟩
    · have hstep : maxStep a g = a := by
        rw [maxStep, if_neg hmd]
      rw [hstep]
      rcases ih a with h | ⟨f, hf, hm, he⟩
      · exact Or.inl h
      · exact Or.inr ⟨f, List.mem_cons_of_mem g hf, hm, he⟩

theorem findMaxId_append {files : List Str} {g : Str} :
    findMaxId (some (files ++ [g])) = maxStep (findMaxId (some files)) g := by
  simp only [findMaxId, List.foldl_append, List.foldl_cons, List.foldl_nil]

/-! ### `create` and sequences of creations -/

theorem create_ok (st : StoreState) (hinit : st.initialized = true) (task : Task) :
    create st task = .ok ({ task with id := nextId (some (st.files.map Prod.fst)) },
      writeFile st
        (Task.filename { task with id := nextId (some (st.files.map Prod.fst)) })
        (serializeTask { task with id := nextId (some (st.files.map Prod.fst)) })) := by
  rw [create, if_neg (by rw [hinit]; simp)]

theorem writeFile_fresh {st : StoreState} {name : Str} (h : name ∉ st.files.map Prod.fst)
    (content : Str) :
    writeFile st name content = { st with files := st.files ++ [(name, content)] } := by
  rw [writeFile, if_neg]
  intro hany
  obtain ⟨e, he, heq⟩ := List.any_eq_true.mp hany
  exact h (List.mem_map.mpr ⟨e, he, of_decide_eq_true heq⟩)

theorem createSeq_ids : ∀ (ts : List Task) (st : StoreState) (k : Nat),
    st.initialized = true →
    findMaxId (some (st.files.map Prod.fst)) = k →
    k + ts.length < 2 ^ 64 →
    ∃ out st', createSeq ts st = .ok (out, st')
      ∧ out.map Task.id = List.range' (k + 1) ts.length
      ∧ st'.initialized = true
      ∧ findMaxId (some (st'.files.map Prod.fst)) = k + ts.length := by
  intro ts
  induction ts with
  | nil =>
    intro st k hinit hmax hbound
    exact ⟨[], st, by rw [createSeq], by simp, hinit, by rw [hmax]; simp⟩
  | cons t ts ih =>
    intro st k hinit hmax hbound
    have hnext : nextId (some (st.files.map Prod.fst)) = k + 1 := by rw [nextId, hmax]
    have hcreate := create_ok st hinit t
    rw [hnext] at hcreate
    have hidlt : ({ t with id := k + 1 } : Task).id < 2 ^ 64 := by
      show k + 1 < 2 ^ 64
      simp only [List.length_cons] at hbound
      omega
    have hfresh : Task.filename { t with id := k + 1 } ∉ st.files.map Prod.fst := by
      intro hmem
      have hid : extractId (Task.filename { t with id := k + 1 }) = some (k + 1) := by
        rw [extractId_filename hidlt]
      have hub := foldl_maxStep_ub (st.files.map Prod.fst) 0 _ hmem
        (hasMdExt_filename _) (k + 1) hid
      have hmax' : (st.files.map Prod.fst).foldl maxStep 0 = k := hmax
      omega
    have hwrite := writeFile_fresh hfresh (serializeTask { t with id := k + 1 })
    have hinitW : (writeFile st (Task.filename { t with id := k + 1 })
        (serializeTask { t with id := k + 1 })).initialized = true := by
      rw [hwrite]
      exact hinit
    have hmaxW : findMaxId (some ((writeFile st (Task.filename { t with id := k + 1 })
        (serializeTask { t with id := k + 1 })).files.map Prod.fst)) = k + 1 := by
      rw [hwrite]
      show findMaxId (some ((st.files ++
        [(Task.filename { t with id := k + 1 },
          serializeTask { t with id := k + 1 })]).map Prod.fst)) = k + 1
      rw [List.map_append]
      show findMaxId (some (st.files.map Prod.fst ++ [Task.filename { t with id := k + 1 }]))
        = k + 1
      rw [findMaxId_append, hmax, maxStep, if_pos (hasMdExt_filename _),
        extractId_filename hidlt]
      show max k (k + 1) = k + 1
      omega
    obtain ⟨out, st'', hseq, hids, hinit'', hmax''⟩ :=
      ih (writeFile st (Task.filename { t with id := k + 1 })
        (serializeTask { t with id := k + 1 })) (k + 1) hinitW hmaxW
        (by simp only [List.length_cons] at hbound; omega)
    refine ⟨{ t with id := k + 1 } :: out, st'', ?_, ?_, hinit'', ?_⟩
    · simp only [createSeq, hcreate, hseq]
    · simp only [List.map_cons, hids, List.length_cons, List.range'_succ]
    · rw [hmax'']
      simp only [List.length_cons]
      omega

/-- C2: `next_id` is one plus the maximum identifier decoded from the
`.md` entries (the maximum being an upper bound that is attained unless
it is 0, and 0 for an absent directory), and creating a sequence of
records against an empty initialized location assigns identifiers
1, 2, …, N in creation order. -/
theorem claim_C2_nextId (files : List Str) (ts : List Task) (hN : ts.length < 2 ^ 64) :
    nextId none = 1
    ∧ nextId (some files) = findMaxId (some files) + 1
    ∧ (∀ f ∈ files, hasMdExt f = true → ∀ i, extractId f = some i → i ≤ findMaxId (some files))
    ∧ (findMaxId (some files) = 0
        ∨ ∃ f ∈ files, hasMdExt f = true ∧ extractId f = some (findMaxId (some files)))
    ∧ ((∀ f ∈ files, hasMdExt f = true → extractId f = none) → findMaxId (some files) = 0)
    ∧ ∃ out st', createSeq ts { initialized := true, files := [] } = .ok (out, st')
        ∧ out.map Task.id = List.range' 1 ts.length := by
  refine ⟨rfl, rfl, ?_, ?_, ?_, ?_⟩
  · intro f hf hmd i hi
    exact foldl_maxStep_ub files 0 f hf hmd i hi
  · exact foldl_maxStep_attained files 0
  · intro hnone
    rcases foldl_maxStep_attained files 0 with h | ⟨f, hf, hmd, hi⟩
    · exact h
    · rw [hnone f hf hmd] at hi
      exact absurd hi (by simp)
  · obtain ⟨out, st', h1, h2, _, _⟩ :=
      createSeq_ids ts { initialized := true, files := [] } 0 rfl rfl (by omega)
    exact ⟨out, st', h1, h2⟩

/-- C2 witness: the identifier law at a concrete directory listing and a
concrete two-record creation sequence. -/
theorem claim_C2_witness :
    ([mkTask 0 "first".toList, mkTask 0 "second".toList].length < 2 ^ 64)
    ∧ (nextId none = 1
      ∧ nextId (some ["a-1.md".toList, "b-10.md".toList, "b-99.txt".toList])
          = findMaxId (some ["a-1.md".toList, "b-10.md".toList, "b-99.txt".toList]) + 1
      ∧ (∀ f ∈ ["a-1.md".toList, "b-10.md".toList, "b-99.txt".toList], hasMdExt f = true →
          ∀ i, extractId f = some i
            → i ≤ findMaxId (some ["a-1.md".toList, "b-10.md".toList, "b-99.txt".toList]))
      ∧ (findMaxId (some ["a-1.md".toList, "b-10.md".toList, "b-99.txt".toList]) = 0
          ∨ ∃ f ∈ ["a-1.md".toList, "b-10.md".toList, "b-99.txt".toList], hasMdExt f = true
              ∧ extractId f
                = some (findMaxId (some ["a-1.md".toList, "b-10.md".toList, "b-99.txt".toList])))
      ∧ ((∀ f ∈ ["a-1.md".toList, "b-10.md".toList, "b-99.txt".toList],
            hasMdExt f = true → extractId f = none)
          → findMaxId (some ["a-1.md".toList, "b-10.md".toList, "b-99.txt".toList]) = 0)
      ∧ ∃ out st',
          createSeq [mkTask 0 "first".toList, mkTask 0 "second".toList]
            { initialized := true, files := [] } = .ok (out, st')
          ∧ out.map Task.id
            = List.range' 1 [mkTask 0 "first".toList, mkTask 0 "second".toList].length) :=
  ⟨by decide,
    claim_C2_nextId ["a-1.md".toList, "b-10.md".toList, "b-99.txt".toList]
      [mkTask 0 "first".toList, mkTask 0 "second".toList] (by decide)⟩

/-- C10: against an initialized location, `create` succeeds and returns a
record that differs from the draft only in its identifier: every other
field is the draft's. -/
theorem claim_C10_create_frame (st : StoreState) (task : Task) (hinit : st.initialized = true) :
    ∃ t' st', create st task = .ok (t', st')
      ∧ t'.id = nextId (some (st.files.map Prod.fst))
      ∧ t'.title = task.title ∧ t'.status = task.status ∧ t'.priority = task.priority
      ∧ t'.kind = task.kind ∧ t'.tags = task.tags ∧ t'.due = task.due
      ∧ t'.created = task.created ∧ t'.updated = task.updated
      ∧ t'.closed_commit = task.closed_commit ∧ t'.description = task.description :=
  ⟨{ task with id := nextId (some (st.files.map Prod.fst)) }, _, create_ok st hinit task,
    rfl, rfl, rfl, rfl, rfl, rfl, rfl, rfl, rfl, rfl, rfl⟩

/-- C10 witness: the frame property of `create` at the concrete store
`wStoreC10` and a concrete draft record. -/
theorem claim_C10_witness :
    wStoreC10.initialized = true
    ∧ ∃ t' st',
        create wStoreC10 (mkTask 0 "draft".toList) = .ok (t', st')
        ∧ t'.id = nextId (some (wStoreC10.files.map Prod.fst))
        ∧ t'.title = (mkTask 0 "draft".toList).title
        ∧ t'.status = (mkTask 0 "draft".toList).status
        ∧ t'.priority = (mkTask 0 "draft".toList).priority
        ∧ t'.kind = (mkTask 0 "draft".toList).kind
        ∧ t'.tags = (mkTask 0 "draft".toList).tags
        ∧ t'.due = (mkTask 0 "draft".toList).due
        ∧ t'.created = (mkTask 0 "draft".toList).created
        ∧ t'.updated = (mkTask 0 "draft".toList).updated
        ∧ t'.closed_commit = (mkTask 0 "draft".toList).closed_commit
        ∧ t'.description = (mkTask 0 "draft".toList).description :=
  ⟨rfl, claim_C10_create_frame wStoreC10 (mkTask 0 "draft".toList) rfl⟩

/-! ### Reading tasks back -/

theorem find_by_name {files : List (Str × Str)} {e : Str × Str}
    (hnodup : (files.map Prod.fst).Nodup) (he : e ∈ files) :
    files.find? (fun x => x.1 = e.1) = some e := by
  induction files with
  | nil => exact absurd he (List.not_mem_nil e)
  | cons a r ih =>
    by_cases hpa : a.1 = e.1
    · rw [List.find?_cons_of_pos _ (by simp [hpa])]
      rcases List.mem_cons.mp he with rfl | hm
      · rfl
      · have ha := (List.nodup_cons.mp hnodup).1
        exact absurd (hpa ▸ List.mem_map_of_mem Prod.fst hm) ha
    · rw [List.find?_cons_of_neg _ (by simp [hpa])]
      rcases List.mem_cons.mp he with rfl | hm
      · exact absurd rfl hpa
      · exact ih (List.nodup_cons.mp hnodup).2 hm

/-- C3 counterexample: when the tasks directory does not exist, `read`
fails with `DirectoryNotInitialized`, not with `TaskNotFound(id)` as the
claim states. -/
theorem claim_C3_counterexample :
    readTask { initialized := false, files := [] } 1 = .error .directoryNotInitialized
    ∧ readTask { initialized := false, files := [] } 1 ≠ .error (.taskNotFound 1) :=
  ⟨rfl, fun h => by exact absurd (Except.error.inj h) (by intro hc; cases hc)⟩

/-- C3 (amended): `read(id)` scans the directory entries for an `.md`
file whose decoded identifier equals `id` and parses the first match; it
fails with `TaskNotFound(id)` when the directory exists but no entry
matches, and with `DirectoryNotInitialized` — not `TaskNotFound` — when
the directory does not exist. -/
theorem claim_C3_read (st : StoreState) (id : Nat) :
    (st.initialized = false → readTask st id = .error .directoryNotInitialized)
    ∧ (st.initialized = true →
        (∀ e ∈ st.files, ¬(hasMdExt e.1 = true ∧ extractId e.1 = some id)) →
        readTask st id = .error (.taskNotFound id))
    ∧ (st.initialized = true → (st.files.map Prod.fst).Nodup →
        ∀ e, st.files.find? (fun x => hasMdExt x.1 && (extractId x.1 = some id)) = some e →
          readTask st id = (match parseTask e.2 with
            | some t => .ok t
            | none => .error .frontmatter)) := by
  refine ⟨fun hinit => ?_, fun hinit hmiss => ?_, fun hinit hnodup e hfind => ?_⟩
  · have hft : findTaskFile st id = .error .directoryNotInitialized := by
      rw [findTaskFile, if_pos hinit]
    simp only [readTask, hft]
  · have hne : ¬(st.initialized = false) := by rw [hinit]; simp
    have hfind : st.files.find? (fun x => hasMdExt x.1 && (extractId x.1 = some id)) = none := by
      rw [List.find?_eq_none]
      intro x hx hpx
      rw [Bool.and_eq_true, decide_eq_true_iff] at hpx
      exact hmiss x hx hpx
    have hft : findTaskFile st id = .error (.taskNotFound id) := by
      rw [findTaskFile, if_neg hne]
      simp only [hfind]
    simp only [readTask, hft]
  · have hne : ¬(st.initialized = false) := by rw [hinit]; simp
    have hft : findTaskFile st id = .ok e.1 := by
      rw [findTaskFile, if_neg hne]
      simp only [hfind]
    have hmem : e ∈ st.files := List.mem_of_find?_eq_some hfind
    simp only [readTask, hft, find_by_name hnodup hmem]

/-- C3 witness: the amended reading law at a concrete initialized store
with no entries, exercising the `TaskNotFound` branch. -/
theorem claim_C3_witness :
    (({ initialized := true, files := [] } : StoreState).initialized = false
        → readTask { initialized := true, files := [] } 3 = .error .directoryNotInitialized)
    ∧ (({ initialized := true, files := [] } : StoreState).initialized = true →
        (∀ e ∈ ({ initialized := true, files := [] } : StoreState).files,
          ¬(hasMdExt e.1 = true ∧ extractId e.1 = some 3)) →
        readTask { initialized := true, files := [] } 3 = .error (.taskNotFound 3))
    ∧ (({ initialized := true, files := [] } : StoreState).initialized = true →
        ((({ initialized := true, files := [] } : StoreState)).files.map Prod.fst).Nodup →
        ∀ e, ({ initialized := true, files := [] } : StoreState).files.find?
            (fun x => hasMdExt x.1 && (extractId x.1 = some 3)) = some e →
          readTask { initialized := true, files := [] } 3 = (match parseTask e.2 with
            | some t => .ok t
            | none => .error .frontmatter)) :=
  claim_C3_read { initialized := true, files := [] } 3

/-- C6: the filter accepts a record exactly when each set criterion
matches exactly (kind, status, priority), the record carries every tag
listed by a non-empty tag filter, and archived records are excluded
unless the filter opts in. -/
theorem claim_C6_matches (f : TaskFilter) (t : Task) :
    TaskFilter.matches f t = true ↔
      ((∀ k, f.kind = some k → t.kind = k)
       ∧ (∀ s, f.status = some s → t.status = s)
       ∧ (∀ p, f.priority = some p → t.priority = p)
       ∧ (f.tags ≠ [] → ∀ tag ∈ f.tags, tag ∈ t.tags)
       ∧ (f.include_archived = false → t.status ≠ TaskStatus.archived)) := by
  rcases f with ⟨fk, fs, fp, ftags, fa⟩
  cases fk <;> cases fs <;> cases fp <;> cases fa <;>
    simp [TaskFilter.matches, List.isEmpty_iff] <;>
    tauto

/-- C7: `find_project` first scans for a case-insensitive exact basename
match; failing that, it succeeds exactly when the case-insensitive
prefix filter selects exactly one registered project, and returns `none`
(rather than picking one) when the prefix matches number zero, two or
more. -/
theorem claim_C7_find_project (r : ProjectRegistry) (name : Str) :
    ((∃ p ∈ r.projects, exactMatch name p = true) →
        ∃ p, ProjectRegistry.find_project r name = some p
          ∧ p ∈ r.projects ∧ exactMatch name p = true)
    ∧ ((∀ p ∈ r.projects, exactMatch name p = false) →
        (((r.projects.filter (prefMatch name)).length = 1 →
            ∃ p, ProjectRegistry.find_project r name = some p
              ∧ p ∈ r.projects ∧ prefMatch name p = true)
          ∧ ((r.projects.filter (prefMatch name)).length ≠ 1 →
              ProjectRegistry.find_project r name = none))) := by
  constructor
  · rintro ⟨p, hp, hex⟩
    cases hfind : r.projects.find? (exactMatch name) with
    | none =>
      exact absurd hex (by simpa using List.find?_eq_none.mp hfind p hp)
    | some q =>
      refine ⟨q, ?_, List.mem_of_find?_eq_some hfind, List.find?_some hfind⟩
      rw [ProjectRegistry.find_project, hfind]
  · intro hall
    have hfind : r.projects.find? (exactMatch name) = none := by
      rw [List.find?_eq_none]
      intro x hx h
      rw [hall x hx] at h
      cases h
    constructor
    · intro hlen
      obtain ⟨p, hp⟩ := List.length_eq_one.mp hlen
      have hpm : p ∈ r.projects.filter (prefMatch name) := by
        rw [hp]
        simp
      have hmem := List.mem_filter.mp hpm
      refine ⟨p, ?_, hmem.1, hmem.2⟩
      rw [ProjectRegistry.find_project, hfind]
      simp [hp]
    · intro hlen
      rw [ProjectRegistry.find_project, hfind]
      simp only [if_neg hlen]

/-- C8 counterexample: for `"proj:3"` the id parses and `find_project`
resolves the project, yet `resolve_qualified_id` does not return that
project's location paired with 3 — it fails with a fourth error,
`Failed to find project: …`, when the walk up from the project path
finds no `.git`.  This failure mode is absent from the claim. -/
theorem claim_C8_counterexample :
    ProjectRegistry.find_project regC8 "proj".toList = some ["proj".toList]
    ∧ parseU64 "3".toList = some 3
    ∧ resolveQualifiedId [] regC8 "proj:3".toList (some wLocC8)
        = .error ("Failed to find project: Not in a git repository".toList) := by
  refine ⟨by decide, by decide, by decide⟩

/-- C8 (amended): `resolve_qualified_id` splits at the first colon; with
a colon, the id part must parse (else `Invalid task ID`), the project
part must resolve through `find_project` (else `Project not found`), and
— beyond the claim — the project path must still contain a git root
(else `Failed to find project`); only then does it yield that location
and the id.  Without a colon, the whole string must parse (else
`Invalid task ID`) and a default location must be supplied (else
`No default location available`). -/
theorem claim_C8_resolve (fs : List Path) (registry : ProjectRegistry) (idStr : Str)
    (dl : Option TaskLocation) :
    (∀ pn ip, splitFirst ':' idStr = some (pn, ip) →
      (parseU64 ip = none →
        resolveQualifiedId fs registry idStr dl = .error ("Invalid task ID: ".toList ++ ip))
      ∧ (∀ n, parseU64 ip = some n →
          (ProjectRegistry.find_project registry pn = none →
            resolveQualifiedId fs registry idStr dl
              = .error ("Project not found: ".toList ++ pn))
          ∧ (∀ pp, ProjectRegistry.find_project registry pn = some pp →
              (∀ e, findProjectFrom fs pp = .error e →
                resolveQualifiedId fs registry idStr dl
                  = .error ("Failed to find project: ".toList ++ locErrStr e))
              ∧ (∀ loc, findProjectFrom fs pp = .ok loc →
                  resolveQualifiedId fs registry idStr dl = .ok (loc, n)))))
    ∧ (splitFirst ':' idStr = none →
        (parseU64 idStr = none →
          resolveQualifiedId fs registry idStr dl
            = .error ("Invalid task ID: ".toList ++ idStr))
        ∧ (∀ n, parseU64 idStr = some n →
            (dl = none → resolveQualifiedId fs registry idStr dl
              = .error "No default location available".toList)
            ∧ (∀ loc, dl = some loc →
                resolveQualifiedId fs registry idStr dl = .ok (loc, n)))) := by
  refine ⟨fun pn ip hsplit => ⟨fun hbad => ?_, fun n hn => ⟨fun hnp => ?_,
      fun pp hpp => ⟨fun e he => ?_, fun loc hloc => ?_⟩⟩⟩,
    fun hsplit => ⟨fun hbad => ?_, fun n hn => ⟨fun hdl => ?_, fun loc hloc => ?_⟩⟩⟩
  · simp only [resolveQualifiedId, hsplit, hbad]
  · simp only [resolveQualifiedId, hsplit, hn, hnp]
  · simp only [resolveQualifiedId, hsplit, hn, hpp, he]
  · simp only [resolveQualifiedId, hsplit, hn, hpp, hloc]
  · simp only [resolveQualifiedId, hsplit, hbad]
  · simp only [resolveQualifiedId, hsplit, hn, hdl]
  · simp only [resolveQualifiedId, hsplit, hn, hloc]

theorem save_congr {A B : ProjectRegistry} (h : A.projects = B.projects) :
    ProjectRegistry.save A = ProjectRegistry.save B := by
  cases A
  cases B
  cases h
  rfl

theorem unlink_some {canon : Path → Option Path} {r : ProjectRegistry} {p c' : Path}
    (hpm : p ∉ r.projects) (hcanon : canon p = some c') :
    ProjectRegistry.unlink canon r p =
      (if c' ∈ r.projects
        then (ProjectRegistry.save { r with projects := r.projects.erase c' }, true)
        else (r, false)) := by
  rw [ProjectRegistry.unlink, if_neg hpm, hcanon]

theorem unlink_none {canon : Path → Option Path} {r : ProjectRegistry} {p : Path}
    (hpm : p ∉ r.projects) (hcanon : canon p = none) :
    ProjectRegistry.unlink canon r p = (r, false) := by
  rw [ProjectRegistry.unlink, if_neg hpm, hcanon]

/-- C9: for a path not yet registered (in either given or canonical
form), `link` inserts and returns `true`; a second `link` returns
`false` and leaves the registry -- set and persisted file alike --
unchanged; `unlink` then removes the entry (as given, or failing that in
canonical form) returning `true` and restoring the original project
set; a second `unlink` returns `false` and changes nothing. -/
theorem claim_C9_registry (canon : Path → Option Path) (r : ProjectRegistry) (p : Path)
    (hp : p ∉ r.projects) (hc : (canon p).getD p ∉ r.projects) :
    ∃ r1 r2, ProjectRegistry.link canon r p = (r1, true)
      ∧ ProjectRegistry.link canon r1 p = (r1, false)
      ∧ ProjectRegistry.unlink canon r1 p = (r2, true)
      ∧ r2.projects = r.projects
      ∧ ProjectRegistry.unlink canon r2 p = (r2, false) := by
  refine ⟨ProjectRegistry.save { r with projects := r.projects ++ [(canon p).getD p] },
    ProjectRegistry.save { r with projects := r.projects }, ?_, ?_, ?_, rfl, ?_⟩
  · simp only [ProjectRegistry.link]
    rw [if_neg hc]
  · simp only [ProjectRegistry.link, ProjectRegistry.save]
    rw [if_pos (by simp)]
  · cases hcanon : canon p with
    | none =>
      show ProjectRegistry.unlink canon
        (ProjectRegistry.save { r with projects := r.projects ++ [p] }) p
        = (ProjectRegistry.save { r with projects := r.projects }, true)
      have hpm : p ∈ (ProjectRegistry.save
          { r with projects := r.projects ++ [p] }).projects :=
        List.mem_append_right _ (by simp)
      rw [ProjectRegistry.unlink, if_pos hpm]
      have h2 : (ProjectRegistry.save
            { r with projects := r.projects ++ [p] }).projects.erase p
          = ({ r with projects := r.projects } : ProjectRegistry).projects := by
        show (r.projects ++ [p]).erase p = r.projects
        rw [List.erase_append_right _ hp, List.erase_cons_head, List.append_nil]
      rw [save_congr h2]
    | some c' =>
      have hcc : (canon p).getD p = c' := by rw [hcanon]; rfl
      rw [hcc] at hc
      show ProjectRegistry.unlink canon
        (ProjectRegistry.save { r with projects := r.projects ++ [c'] }) p
        = (ProjectRegistry.save { r with projects := r.projects }, true)
      by_cases hpm : p ∈ (ProjectRegistry.save
          { r with projects := r.projects ++ [c'] }).projects
      · rw [ProjectRegistry.unlink, if_pos hpm]
        have hpc : p = c' := by
          have hm : p ∈ r.projects ++ [c'] := hpm
          rcases List.mem_append.mp hm with h | h
          · exact absurd h hp
          · simpa using h
        have h2 : (ProjectRegistry.save
              { r with projects := r.projects ++ [c'] }).projects.erase p
            = ({ r with projects := r.projects } : ProjectRegistry).projects := by
          show (r.projects ++ [c']).erase p = r.projects
          rw [hpc, List.erase_append_right _ hc, List.erase_cons_head, List.append_nil]
        rw [save_congr h2]
      · rw [unlink_some hpm hcanon]
        have hcin : c' ∈ (ProjectRegistry.save
            { r with projects := r.projects ++ [c'] }).projects := by
          show c' ∈ r.projects ++ [c']
          exact List.mem_append_right _ (by simp)
        rw [if_pos hcin]
        have h2 : (ProjectRegistry.save
              { r with projects := r.projects ++ [c'] }).projects.erase c'
            = ({ r with projects := r.projects } : ProjectRegistry).projects := by
          show (r.projects ++ [c']).erase c' = r.projects
          rw [List.erase_append_right _ hc, List.erase_cons_head, List.append_nil]
        rw [save_congr h2]
  · cases hcanon : canon p with
    | none => exact unlink_none hp hcanon
    | some c' =>
      have hcc : (canon p).getD p = c' := by rw [hcanon]; rfl
      have hp2 : p ∉ (ProjectRegistry.save
          { r with projects := r.projects } : ProjectRegistry).projects := hp
      rw [unlink_some hp2 hcanon]
      rw [if_neg (show c' ∉ (ProjectRegistry.save
          { r with projects := r.projects } : ProjectRegistry).projects from hcc ▸ hc)]

/-- C9 witness: the idempotence law at a concrete empty registry, a
concrete path and the nothing-exists canonicalization oracle. -/
theorem claim_C9_witness :
    pathC9 ∉ regC9.projects
    ∧ (canonC9 pathC9).getD pathC9 ∉ regC9.projects
    ∧ ∃ r1 r2, ProjectRegistry.link canonC9 regC9 pathC9 = (r1, true)
      ∧ ProjectRegistry.link canonC9 r1 pathC9 = (r1, false)
      ∧ ProjectRegistry.unlink canonC9 r1 pathC9 = (r2, true)
      ∧ r2.projects = regC9.projects
      ∧ ProjectRegistry.unlink canonC9 r2 pathC9 = (r2, false) :=
  ⟨by decide, by decide, claim_C9_registry canonC9 regC9 pathC9 (by decide) (by decide)⟩

end GitTasks
